import Mathlib

/-!
# shady: audio mapping, PCM decoding, audio texture and frame pacing

A shallow embedding of `shadertoy/audio.go` and of the frame limit and pacing
loop of `cmd/shady/shady.go`.

Conventions of the embedding:

* a Go `string` is the list of its characters (all strings that matter here are
  ASCII, so bytes and runes coincide);
* Go `int`, `uint` and `time.Duration` are 64 bit: they are integers wrapped
  explicitly by `i64` and `u64`;
* a `float64` is the rational number it denotes; a `float64` multiplication or
  addition is the exact operation followed by `roundF64`, rounding to the nearest
  `float64` with ties to even (overflow to infinity is not part of the model);
  the one division, in `ReadSamples`, is kept as the exact quotient that its
  rounded result stands for;
* an `io.Reader` is the finite list of bytes it can still deliver; once the list
  is used up every further read fails;
* a Go `panic` is an `Except.error` carrying a `Panic`.
-/

namespace Shady

/-! ## Basic types -/

/-- A byte of a PCM stream. -/
abbrev Byte := Fin 256

/-- Go `type format string`. -/
abbrev format := List Char

/-- The ways the modelled code can panic. -/
inductive Panic where
  /-- a string slice or index expression outside the string -/
  | stringBounds
  /-- `panic(err)` after a failed `strconv.Atoi` in `format.Bits` -/
  | atoiFailed
  /-- `make` with a negative length -/
  | makeLen
  /-- integer division by zero -/
  | divideByZero
  /-- a slice expression outside the capacity of the slice -/
  | sliceBounds
  /-- an index expression outside the slice -/
  | indexBounds
  /-- `panic(fmt.Sprintf("Unimplemented format %q", s.format))` -/
  | unimplementedFormat (f : format)
  deriving DecidableEq, Repr

/-- Wrap an integer to the range of a Go `int` / `int64` / `time.Duration`. -/
def i64 (x : Int) : Int := (x + 2 ^ 63) % 2 ^ 64 - 2 ^ 63

/-- Wrap a natural number to the range of a Go `uint`. -/
def u64 (x : Nat) : Nat := x % 2 ^ 64

/-- Go `time.Second`, in nanoseconds. -/
def timeSecond : Int := 1000000000

/-- Go `const audioTexWidth = 512`. -/
def audioTexWidth : Nat := 512

/-! ## `float64` arithmetic -/

/-- Round a rational to the nearest integer, a tie to the even one. -/
def roundHalfEven (x : ℚ) : Int :=
  if x - ⌊x⌋ < 1 / 2 then ⌊x⌋
  else if 1 / 2 < x - ⌊x⌋ then ⌊x⌋ + 1
  else if ⌊x⌋ % 2 = 0 then ⌊x⌋ else ⌊x⌋ + 1

/-- The exponent of the unit in the last place of a `float64` of the size of `q`:
53 bits of precision, and never below the exponent `-1074` of the subnormal
numbers. -/
def ulpExp (q : ℚ) : Int := max (Int.log 2 |q| - 52) (-1074)

/-- The `float64` nearest to a rational, ties to even: the multiple of the unit in
the last place that `roundHalfEven` picks. -/
def roundF64 (q : ℚ) : ℚ := (roundHalfEven (q / 2 ^ ulpExp q) : ℚ) * 2 ^ ulpExp q

/-- Go `a * b` on `float64`. -/
def fmul (a b : ℚ) : ℚ := roundF64 (a * b)

/-- Go `a + b` on `float64`. -/
def fadd (a b : ℚ) : ℚ := roundF64 (a + b)

/-! ## `strconv.Atoi` -/

/-- Whether a character is an ASCII decimal digit. -/
def isDigit (c : Char) : Bool := decide ('0' ≤ c) && decide (c ≤ '9')

/-- The value of a decimal digit. -/
def digitVal (c : Char) : Nat := c.toNat - '0'.toNat

/-- The number written by a run of decimal digits, most significant first. -/
def decimal (ds : List Char) : Nat := ds.foldl (fun n c => 10 * n + digitVal c) 0

/-- Go `strconv.Atoi` on 64 bit: an optional sign and a non-empty run of decimal
digits whose value fits an `int`; `none` is a non-nil `err`. -/
def Atoi (s : List Char) : Option Int :=
  let body (neg : Bool) (ds : List Char) : Option Int :=
    if ds = [] ∨ ¬ ds.all isDigit = true then none
    else if neg then (if decimal ds ≤ 2 ^ 63 then some (-(decimal ds : Int)) else none)
    else (if decimal ds < 2 ^ 63 then some (decimal ds : Int) else none)
  match s with
  | [] => none
  | c :: ds =>
    if c = '-' then body true ds
    else if c = '+' then body false ds
    else body false (c :: ds)

/-! ## `format.Bits` -/

/-- Go `func (f format) Bits() int`: the slice `f[1:3]`, cut to one character
when its second character is not a digit, read by `strconv.Atoi`. -/
def format.Bits (f : format) : Except Panic Int :=
  if f.length < 3 then .error .stringBounds
  else
    let s := (f.drop 1).take 2
    let s := match s.get? 1 with
      | some c => if c < '0' ∨ '9' < c then s.take 1 else s
      | none => s
    match Atoi s with
    | some b => .ok b
    | none => .error .atoiFailed

/-! ## The two mapping grammars -/

/-- Go `audioGenericValueRe = "^([^;]+)$"`: the first submatch, if the value
matches. -/
def audioGenericValueRe (value : List Char) : Option (List Char) :=
  if value ≠ [] ∧ value.all (fun c => c != ';') = true then some value else none

/-- The sub-expression `[su]\d{1,2}[lb]e$` of `audioPCMValueRe`. -/
def formatRe : List Char → Bool
  | [a, d, l, e] => (a == 's' || a == 'u') && isDigit d && (l == 'l' || l == 'b') && e == 'e'
  | [a, d1, d2, l, e] =>
      (a == 's' || a == 'u') && isDigit d1 && isDigit d2 && (l == 'l' || l == 'b') && e == 'e'
  | _ => false

/-- The four submatches of a match of `audioPCMValueRe`. -/
structure PCMMatch where
  path : List Char
  rate : List Char
  channels : List Char
  fmt : List Char
  deriving DecidableEq, Repr

/-- Go `audioPCMValueRe = "^([^;]+);(\d+):(\d+):([su]\d{1,2}[lb]e)$"`, read left
to right: every repetition is followed by a character outside its class, so
each group is the longest run of its class. -/
def audioPCMValueRe (value : List Char) : Option PCMMatch :=
  match value.span (fun c => c != ';') with
  | (_, []) => none
  | (path, c1 :: r1) =>
    if path = [] ∨ c1 ≠ ';' then none
    else match r1.span isDigit with
      | (_, []) => none
      | (rate, c2 :: r2) =>
        if rate = [] ∨ c2 ≠ ':' then none
        else match r2.span isDigit with
          | (_, []) => none
          | (channels, c3 :: r3) =>
            if channels = [] ∨ c3 ≠ ':' then none
            else if formatRe r3 then some ⟨path, rate, channels, r3⟩ else none

/-! ## Audio sources -/

/-- Go `type rawSource struct`: `file` is what the reader can still deliver. -/
structure rawSource where
  file : List Byte
  sampleRate : Int
  channels : Int
  format : format
  deriving DecidableEq, Repr

/-- How a run of the external transcoder ends. -/
inductive ProcExit where
  /-- the process could not be started -/
  | spawnFailed
  /-- the process ran and exited with this status -/
  | exited (status : Nat)
  deriving DecidableEq, Repr

/-- A run of the external transcoder: what it wrote to its standard output before
it ended, and how it ended. -/
structure ProcRun where
  output : List Byte
  exit : ProcExit
  deriving DecidableEq, Repr

/-- What `parseMappingValue` takes from outside `audio.go`: `resolvePath` (defined
elsewhere in the package), the file system behind `os.Open` and the `ffmpeg`
process behind `exec.Command`. -/
structure Env where
  resolvePath : List Char → List Char → List Char
  osOpen : List Char → Option (List Byte)
  ffmpeg : List Char → ProcRun

/-- The non-nil errors `parseMappingValue` returns. -/
inductive ParseError where
  /-- "could not parse audio value" -/
  | noMatch
  /-- the error of `strconv.Atoi` -/
  | atoi
  /-- "the number of PCM sample bits must be a multiple of 8" -/
  | bits (f : format)
  /-- "could not open audio source" -/
  | cannotOpen
  /-- a non-nil error of `decodeAudioFile` -/
  | decode
  deriving DecidableEq, Repr

/-- Go `decodeAudioFile`: the transcoder is started in a goroutine and writes into
a pipe; the function returns the read end of the pipe at once, with a nil error
(`none`). A failed run closes the pipe with an error, which the reader sees only
after the bytes written before. -/
def decodeAudioFile (env : Env) (filename : List Char) :
    Int × Int × format × List Byte × Option ParseError :=
  (1, 22000, ['s', '1', '6', 'l', 'e'], (env.ffmpeg filename).output, none)

/-- Go `parseMappingValue`. A panic of `format.Bits` is the outer error, a
returned non-nil `err` the inner one. -/
def parseMappingValue (env : Env) (pwd value : List Char) :
    Except Panic (Except ParseError rawSource) :=
  match audioGenericValueRe value with
  | some m1 =>
    match decodeAudioFile env m1 with
    | (_, _, _, _, some err) => .ok (.error err)
    | (channels, samplerate, ft, pcmStream, none) =>
      .ok (.ok ⟨pcmStream, samplerate, channels, ft⟩)
  | none =>
    match audioPCMValueRe value with
    | none => .ok (.error .noMatch)
    | some m =>
      let filename := env.resolvePath pwd m.path
      match Atoi m.rate with
      | none => .ok (.error .atoi)
      | some samplerate =>
        match Atoi m.channels with
        | none => .ok (.error .atoi)
        | some channels =>
          match format.Bits m.fmt with
          | .error p => .error p
          | .ok b =>
            if Int.tmod b 8 ≠ 0 then .ok (.error (.bits m.fmt))
            else match env.osOpen filename with
              | none => .ok (.error .cannotOpen)
              | some fd =>
                .ok (.ok ⟨fd, samplerate, channels, m.fmt⟩)

/-! ## `rawSource.ReadSamples` -/

/-- The Go expression `int16(bytes[0]) | int16(bytes[1])<<8`: the shift and the
or act on 16 bit patterns, and the pattern is read back in two's complement. -/
def int16OfBytes (b0 b1 : Byte) : Int :=
  let pattern : Nat := b0.val ||| ((b1.val <<< 8) % 2 ^ 16)
  if pattern < 2 ^ 15 then (pattern : Int) else (pattern : Int) - 2 ^ 16

/-- The body of the loop of the `"s16le"` case for index `i`: the slice
`buf[offset : offset+numBytes]` is checked against the capacity of `buf`, then
its first two bytes are decoded and divided by `0x7fff`. -/
def decodeS16le (buf : List Byte) (channels numBytes : Int) (i : Nat) : Except Panic ℚ :=
  let offset := i64 (i64 ((i : Int) * channels) * numBytes)
  let hi := i64 (offset + numBytes)
  if 0 ≤ offset ∧ offset ≤ hi ∧ hi ≤ (buf.length : Int) then
    let bytes := (buf.drop offset.toNat).take (hi - offset).toNat
    match bytes.get? 0, bytes.get? 1 with
    | some b0, some b1 => .ok ((int16OfBytes b0 b1 : ℚ) / (32767 : ℚ))
    | _, _ => .error .indexBounds
  else .error .sliceBounds

/-- The length `(time.Duration(s.sampleRate*s.channels*numBytes)*period)/time.Second`
of the buffer `buf` of `ReadSamples`. -/
def rawSource.bufLen (s : rawSource) (numBytes period : Int) : Int :=
  Int.tdiv (i64 (i64 (i64 (s.sampleRate * s.channels) * numBytes) * period)) timeSecond

/-- The length `time.Duration(s.sampleRate)*period/time.Second` of the slice
`ReadSamples` returns after a failed read. -/
def rawSource.silenceLen (s : rawSource) (period : Int) : Int :=
  Int.tdiv (i64 (s.sampleRate * period)) timeSecond

/-- Go `func (s *rawSource) ReadSamples(period time.Duration) []float64`, with
`period` in nanoseconds. The result is the returned slice together with the
source after the read. `io.ReadAtLeast(s.file, buf, len(buf))` succeeds exactly
when the reader can still deliver `len(buf)` bytes; otherwise it uses up the
reader and returns an error. `make` succeeds for every length that is not
negative: the memory of the machine is not part of the model. -/
def rawSource.ReadSamples (s : rawSource) (period : Int) : Except Panic (List ℚ × rawSource) :=
  match format.Bits s.format with
  | .error p => .error p
  | .ok bits =>
    let numBytes := Int.tdiv bits 8
    let bufLen := s.bufLen numBytes period
    if bufLen < 0 then .error .makeLen
    else if s.file.length < bufLen.toNat then
      let silence := s.silenceLen period
      if silence < 0 then .error .makeLen
      else .ok (List.replicate silence.toNat 0, ⟨[], s.sampleRate, s.channels, s.format⟩)
    else
      let buf := s.file.take bufLen.toNat
      let rest : rawSource := ⟨s.file.drop bufLen.toNat, s.sampleRate, s.channels, s.format⟩
      let n := bufLen
      if numBytes = 0 then .error .divideByZero
      else
        let count := (Int.tdiv n numBytes).toNat
        if s.format = ['s', '1', '6', 'l', 'e'] then
          match (List.range count).mapM (decodeS16le buf s.channels numBytes) with
          | .error p => .error p
          | .ok samples => .ok (samples, rest)
        else .error (.unimplementedFormat s.format)

/-! ## `audioTexture.PreRender` -/

/-- Go conversion of a `float64` to `uint8`: the fraction is discarded. Values
outside `0 .. 255` have no portable result; they are wrapped here. -/
def uint8OfFloat (x : ℚ) : Nat := (Int.tdiv x.num x.den % 256).toNat

/-- The `float64` value of the Go expression `(v*0.5 + 0.5) * 255.0`: the
constants `0.5` and `255.0` are `float64` values, and each of the three
operations rounds. -/
def PreRender.scaled (v : ℚ) : ℚ := fmul (fadd (fmul v (1 / 2)) (1 / 2)) 255

/-- The Go expression `uint8((v*0.5 + 0.5) * 255.0)`. -/
def encodeByte (v : ℚ) : Nat := uint8OfFloat (PreRender.scaled v)

/-- The slice `period` of `PreRender` after the first `if`: a fresh slice of 512
zeros when fewer than 512 samples were read, the last 512 samples otherwise. -/
def PreRender.period (samples : List ℚ) : List ℚ :=
  if samples.length < audioTexWidth then List.replicate audioTexWidth 0
  else samples.drop (samples.length - audioTexWidth)

/-- The first loop of `PreRender`, over the transform bins. A complex number is the
pair of its real and imaginary part. -/
def PreRender.fftLoop (freqs : List (ℚ × ℚ)) (textureData : List Nat) :
    Except Panic (List Nat) :=
  (List.range (audioTexWidth / 2)).foldlM (fun td x =>
    match freqs.get? x with
    | some c => .ok ((td.set (x * 2) (encodeByte c.1)).set (x * 2 + 1) (encodeByte c.2))
    | none => .error .indexBounds) textureData

/-- The second loop of `PreRender`, over the samples of the window. -/
def PreRender.waveLoop (period : List ℚ) (textureData : List Nat) : Except Panic (List Nat) :=
  (List.range audioTexWidth).foldlM (fun td x =>
    match period.get? x with
    | some v => .ok (td.set (audioTexWidth + x) (encodeByte v))
    | none => .error .indexBounds) textureData

/-- The buffer `textureData` that `PreRender` uploads when the uniform exists.
`FFTReal` is `fft.FFTReal` of the library `go-dsp`, which is not part of the
repository. -/
def PreRender.textureData (FFTReal : List ℚ → List (ℚ × ℚ)) (samples : List ℚ) :
    Except Panic (List Nat) :=
  let period := PreRender.period samples
  let freqs := FFTReal period
  match PreRender.fftLoop freqs (List.replicate (audioTexWidth * 2) 0) with
  | .error p => .error p
  | .ok td => PreRender.waveLoop period td

/-- Go `audioTexture.PreRender`, as far as the texture goes: the samples are
read from the source, and the buffer is built only when the uniform of the
texture exists in the shader. -/
def audioTexture.PreRender (FFTReal : List ℚ → List (ℚ × ℚ)) (hasUniform : Bool)
    (source : rawSource) (interval : Int) : Except Panic (Option (List Nat) × rawSource) :=
  match source.ReadSamples interval with
  | .error p => .error p
  | .ok (samples, source1) =>
    if hasUniform then
      match PreRender.textureData FFTReal samples with
      | .error p => .error p
      | .ok td => .ok (some td, source1)
    else .ok (none, source1)

/-! ## The frame limit and the pacing loop of `main` -/

/-- The errors with which `main` exits while it works out the frame limit. -/
inductive FlagError where
  /-- "-duration and -numframes are mutually exclusive" -/
  | mutuallyExclusive
  /-- "-numframes is set while -framerate is not set" -/
  | numFramesWithoutFramerate
  /-- "-duration is set while -framerate is not set" -/
  | durationWithoutFramerate
  deriving DecidableEq, Repr

/-- Go conversion of a `float64` to `uint`: the fraction is discarded. Values
outside the range of `uint` have no portable result; they are wrapped here. -/
def uintOfFloat (x : ℚ) : Nat := (Int.tdiv x.num x.den % 2 ^ 64).toNat

/-- The variable `animateNumFrames` of `main` once the flags are checked. -/
def animateNumFrames (numFrames : Nat) (duration framerate : ℚ) : Except FlagError Nat :=
  if duration ≠ 0 ∧ numFrames ≠ 0 then .error .mutuallyExclusive
  else
    let fromNumFrames : Except FlagError Nat :=
      if numFrames ≠ 0 then
        (if framerate = 0 then .error .numFramesWithoutFramerate else .ok numFrames)
      else .ok 0
    match fromNumFrames with
    | .error e => .error e
    | .ok n =>
      if duration ≠ 0 then
        (if framerate = 0 then .error .durationWithoutFramerate
         else .ok (uintOfFloat (fmul duration framerate)))
      else .ok n

/-- The loop of the pacing goroutine of `main`: `frame` is the counter before the
iteration, the list holds the frames that arrive on `imgStream`, and the result
holds the frames sent on `counterStream`. After the send that makes the counter
equal to the limit the loop cancels and breaks. -/
def pacingLoop {α : Type} (limit : Nat) : Nat → List α → List α
  | _, [] => []
  | frame, img :: rest =>
    let frame1 := u64 (frame + 1)
    if frame1 = limit then [img] else img :: pacingLoop limit frame1 rest

/-! ## The explicit grammar, as the specification words it -/

/-- The explicit grammar of the mapping parser, in the words of the
specification: `path;rate:channels:format` with `format` made of a sign letter,
a run of one or two digits, an endianness letter and `e`. -/
structure ExplicitValue where
  path : List Char
  rate : List Char
  channels : List Char
  sign : Char
  width : List Char
  endian : Char
  deriving DecidableEq, Repr

/-- The format word of an explicit value. -/
def ExplicitValue.fmt (e : ExplicitValue) : List Char :=
  e.sign :: (e.width ++ [e.endian, 'e'])

/-- The text of an explicit value. -/
def ExplicitValue.text (e : ExplicitValue) : List Char :=
  e.path ++ ';' :: (e.rate ++ ':' :: (e.channels ++ ':' :: e.fmt))

/-- The side conditions of the explicit grammar. -/
def ExplicitValue.WellFormed (e : ExplicitValue) : Prop :=
  e.path ≠ [] ∧ (∀ c ∈ e.path, c ≠ ';') ∧
  e.rate ≠ [] ∧ (∀ c ∈ e.rate, isDigit c = true) ∧
  e.channels ≠ [] ∧ (∀ c ∈ e.channels, isDigit c = true) ∧
  (e.sign = 's' ∨ e.sign = 'u') ∧
  (e.width.length = 1 ∨ e.width.length = 2) ∧ (∀ c ∈ e.width, isDigit c = true) ∧
  (e.endian = 'l' ∨ e.endian = 'b')

/-! ## Values used in the examples -/

/-- The environment of the examples: paths resolve to themselves, `track.raw`
holds four bytes and the transcoder fails to start. -/
def exampleEnv : Env :=
  ⟨fun _ p => p,
   fun p => if p = ['t', 'r', 'a', 'c', 'k', '.', 'r', 'a', 'w'] then some [1, 2, 3, 4] else none,
   fun _ => ⟨[], .spawnFailed⟩⟩

/-- The value `track.raw;44100:2:s16le`. -/
def trackS16le : ExplicitValue :=
  ⟨['t', 'r', 'a', 'c', 'k', '.', 'r', 'a', 'w'], ['4', '4', '1', '0', '0'], ['2'],
   's', ['1', '6'], 'l'⟩

/-- The value `track.raw;44100:2:s5be`. -/
def trackS5be : ExplicitValue :=
  ⟨['t', 'r', 'a', 'c', 'k', '.', 'r', 'a', 'w'], ['4', '4', '1', '0', '0'], ['2'],
   's', ['5'], 'b'⟩

/-- A stand-in for `fft.FFTReal` in the examples: every sample becomes a bin with
that real part and no imaginary part. -/
def exampleTransform (xs : List ℚ) : List (ℚ × ℚ) := xs.map (fun x => (x, 0))

/-! ## Rounding to `float64` -/

theorem roundHalfEven_intCast (n : ℤ) : roundHalfEven (n : ℚ) = n := by
  unfold roundHalfEven
  rw [Int.floor_intCast, sub_self, if_pos (by norm_num)]

theorem le_roundHalfEven (x : ℚ) (N : ℤ) (h : (N : ℚ) ≤ x) : N ≤ roundHalfEven x := by
  have hf : N ≤ ⌊x⌋ := Int.le_floor.mpr h
  unfold roundHalfEven
  split_ifs <;> omega

theorem roundHalfEven_le (x : ℚ) (N : ℤ) (h : x ≤ (N : ℚ)) : roundHalfEven x ≤ N := by
  have hfx : (⌊x⌋ : ℚ) ≤ x := Int.floor_le x
  have hf : ⌊x⌋ ≤ N := by exact_mod_cast le_trans hfx h
  have hlt : ¬ x - ⌊x⌋ < 1 / 2 → ⌊x⌋ + 1 ≤ N := by
    intro hn
    have h1 : (⌊x⌋ : ℚ) < N := by linarith
    have h2 : ⌊x⌋ < N := by exact_mod_cast h1
    omega
  unfold roundHalfEven
  split_ifs with h1 h2 h3
  · exact hf
  · exact hlt h1
  · exact hf
  · exact hlt h1
theorem roundF64_zero : roundF64 0 = 0 := by
  unfold roundF64
  rw [zero_div]
  have h := roundHalfEven_intCast 0
  rw [Int.cast_zero] at h
  rw [h, Int.cast_zero, zero_mul]

theorem ulpExp_le (q : ℚ) (k : ℤ) (hq0 : q ≠ 0) (hk : -1074 ≤ k)
    (hq : |q| < 2 ^ (k + 53)) : ulpExp q ≤ k := by
  have hpos : 0 < |q| := abs_pos.mpr hq0
  have hlog : Int.log 2 |q| < k + 53 := by
    rw [← Int.lt_zpow_iff_log_lt (by decide) hpos]
    exact_mod_cast hq
  unfold ulpExp
  omega

theorem two_zpow_split (k e : ℤ) (h : e ≤ k) :
    (2 : ℚ) ^ k = ((2 ^ (k - e).toNat : ℤ) : ℚ) * 2 ^ e := by
  have hk : k = ((k - e).toNat : ℤ) + e := by omega
  have h2 : (2 : ℚ) ≠ 0 := by norm_num
  conv_lhs => rw [hk]
  rw [zpow_add₀ h2, zpow_natCast]
  push_cast
  rfl

theorem roundF64_between (q : ℚ) (a b k : ℤ) (hk : -1074 ≤ k) (hq : |q| < 2 ^ (k + 53))
    (ha : (a : ℚ) * 2 ^ k ≤ q) (hb : q ≤ (b : ℚ) * 2 ^ k) :
    (a : ℚ) * 2 ^ k ≤ roundF64 q ∧ roundF64 q ≤ (b : ℚ) * 2 ^ k := by
  by_cases hq0 : q = 0
  · subst hq0
    rw [roundF64_zero]
    exact ⟨ha, hb⟩
  have he := ulpExp_le q k hq0 hk hq
  have hpos : (0 : ℚ) < 2 ^ ulpExp q := zpow_pos (by norm_num) _
  have hsplit := two_zpow_split k (ulpExp q) he
  have hA : (a : ℚ) * 2 ^ k = ((a * 2 ^ (k - ulpExp q).toNat : ℤ) : ℚ) * 2 ^ ulpExp q := by
    rw [hsplit]; push_cast; ring
  have hB : (b : ℚ) * 2 ^ k = ((b * 2 ^ (k - ulpExp q).toNat : ℤ) : ℚ) * 2 ^ ulpExp q := by
    rw [hsplit]; push_cast; ring
  rw [hA] at ha ⊢
  rw [hB] at hb ⊢
  unfold roundF64
  constructor
  · apply mul_le_mul_of_nonneg_right _ (le_of_lt hpos)
    exact_mod_cast le_roundHalfEven _ _ ((le_div_iff₀ hpos).mpr ha)
  · apply mul_le_mul_of_nonneg_right _ (le_of_lt hpos)
    exact_mod_cast roundHalfEven_le _ _ ((div_le_iff₀ hpos).mpr hb)

theorem roundF64_exact (m k : ℤ) (hm : |m| < 2 ^ 53) (hk : -1074 ≤ k) :
    roundF64 ((m : ℚ) * 2 ^ k) = (m : ℚ) * 2 ^ k := by
  have hq : |(m : ℚ) * 2 ^ k| < 2 ^ (k + 53) := by
    have hpos : (0 : ℚ) < 2 ^ k := zpow_pos (by norm_num) _
    have hm' : |(m : ℚ)| < 2 ^ 53 := by exact_mod_cast hm
    rw [abs_mul, abs_of_pos hpos, zpow_add₀ (by norm_num : (2 : ℚ) ≠ 0), mul_comm ((2 : ℚ) ^ k)]
    exact mul_lt_mul_of_pos_right (by exact_mod_cast hm') hpos
  have h := roundF64_between ((m : ℚ) * 2 ^ k) m m k hk hq le_rfl le_rfl
  exact le_antisymm h.2 h.1

/-! ## Characters, digits and `strconv.Atoi` -/

theorem isDigit_iff (c : Char) : isDigit c = true ↔ 48 ≤ c.toNat ∧ c.toNat ≤ 57 := by
  simp only [isDigit, Bool.and_eq_true, decide_eq_true_eq]
  rw [Char.le_def, Char.le_def]
  simp [Char.toNat, UInt32.le_def, BitVec.le_def]
  rfl

theorem outside_digits_iff (c : Char) : (c < '0' ∨ '9' < c) ↔ isDigit c = false := by
  rw [← Bool.not_eq_true, isDigit_iff, Char.lt_def, Char.lt_def]
  simp [Char.toNat, UInt32.lt_def, BitVec.lt_def]
  have h0 : ('0' : Char).val.toNat = 48 := rfl
  have h9 : ('9' : Char).val.toNat = 57 := rfl
  change c.val.toNat < ('0' : Char).val.toNat ∨ ('9' : Char).val.toNat < c.val.toNat ↔ _
  rw [h0, h9]
  omega

theorem digitVal_le (c : Char) (h : isDigit c = true) : digitVal c ≤ 9 := by
  rw [isDigit_iff] at h
  have h0 : ('0' : Char).toNat = 48 := rfl
  unfold digitVal
  omega

theorem decimal_append (ds : List Char) (c : Char) :
    decimal (ds ++ [c]) = 10 * decimal ds + digitVal c := by
  simp [decimal, List.foldl_append]

theorem Atoi_digits (ds : List Char) (hne : ds ≠ []) (hd : ∀ c ∈ ds, isDigit c = true) :
    Atoi ds = if decimal ds < 2 ^ 63 then some (decimal ds : Int) else none := by
  cases ds with
  | nil => exact absurd rfl hne
  | cons c t =>
    have hc : isDigit c = true := hd c (List.mem_cons_self _ _)
    have h1 : c ≠ '-' := by
      intro h; subst h; revert hc; decide
    have h2 : c ≠ '+' := by
      intro h; subst h; revert hc; decide
    have hall : (c :: t).all isDigit = true := by
      rw [List.all_eq_true]; exact hd
    simp only [Atoi, h1, h2, if_false, hall]
    simp

/-! ## The mapping grammar -/

theorem span_append_cons {p : Char → Bool} (l r : List Char) (c : Char)
    (hl : ∀ a ∈ l, p a = true) (hc : p c = false) :
    (l ++ c :: r).span p = (l, c :: r) := by
  rw [List.span_eq_take_drop, List.takeWhile_append_of_pos hl, List.dropWhile_append_of_pos hl]
  simp [List.takeWhile_cons, List.dropWhile_cons, hc]

theorem span_split {p : Char → Bool} (v l r : List Char) (h : v.span p = (l, r)) :
    v = l ++ r ∧ (∀ a ∈ l, p a = true) := by
  rw [List.span_eq_take_drop] at h
  injection h with h1 h2
  subst h1; subst h2
  exact ⟨(List.takeWhile_append_dropWhile p v).symm, fun a ha => List.mem_takeWhile_imp ha⟩

theorem formatRe_fmt (e : ExplicitValue) (h : e.WellFormed) : formatRe e.fmt = true := by
  obtain ⟨-, -, -, -, -, -, hs, hw, hwd, he⟩ := h
  obtain ⟨p, r, c, s, w, en⟩ := e
  simp only [ExplicitValue.fmt] at *
  rcases hw with hw | hw
  · obtain ⟨d, rfl⟩ := List.length_eq_one.mp hw
    have hd := hwd d (List.mem_singleton_self d)
    rcases hs with rfl | rfl <;> rcases he with rfl | rfl <;> simp [formatRe, hd]
  · obtain ⟨d1, d2, rfl⟩ := List.length_eq_two.mp hw
    have hd1 := hwd d1 (by simp)
    have hd2 := hwd d2 (by simp)
    rcases hs with rfl | rfl <;> rcases he with rfl | rfl <;> simp [formatRe, hd1, hd2]

theorem formatRe_sound (f : List Char) (h : formatRe f = true) :
    ∃ s w en, f = s :: (w ++ [en, 'e']) ∧ (s = 's' ∨ s = 'u') ∧
      (w.length = 1 ∨ w.length = 2) ∧ (∀ c ∈ w, isDigit c = true) ∧ (en = 'l' ∨ en = 'b') := by
  rcases f with _ | ⟨a, _ | ⟨b, _ | ⟨c, _ | ⟨d, _ | ⟨e, _ | ⟨g, r⟩⟩⟩⟩⟩⟩
  all_goals simp [formatRe] at h
  · obtain ⟨⟨⟨hs, hd⟩, hl⟩, he⟩ := h
    subst he
    exact ⟨a, [b], c, rfl, hs, Or.inl rfl, by simpa using hd, hl⟩
  · obtain ⟨⟨⟨⟨hs, hd1⟩, hd2⟩, hl⟩, he⟩ := h
    subst he
    exact ⟨a, [b, c], d, rfl, hs, Or.inr rfl, by simp [hd1, hd2], hl⟩

theorem audioPCMValueRe_text (e : ExplicitValue) (h : e.WellFormed) :
    audioPCMValueRe e.text = some ⟨e.path, e.rate, e.channels, e.fmt⟩ := by
  have hf := formatRe_fmt e h
  obtain ⟨hp, hpc, hr, hrd, hc, hcd, -⟩ := h
  have hcolon : isDigit ':' = false := by decide
  have h1 : (e.path ++ ';' :: (e.rate ++ ':' :: (e.channels ++ ':' :: e.fmt))).span
      (fun c => c != ';') = (e.path, ';' :: (e.rate ++ ':' :: (e.channels ++ ':' :: e.fmt))) :=
    span_append_cons _ _ _ (by simpa using hpc) (by simp)
  have h2 : (e.rate ++ ':' :: (e.channels ++ ':' :: e.fmt)).span isDigit
      = (e.rate, ':' :: (e.channels ++ ':' :: e.fmt)) := span_append_cons _ _ _ hrd hcolon
  have h3 : (e.channels ++ ':' :: e.fmt).span isDigit = (e.channels, ':' :: e.fmt) :=
    span_append_cons _ _ _ hcd hcolon
  simp only [audioPCMValueRe, ExplicitValue.text, h1, h2, h3]
  simp [hp, hr, hc, hf]

theorem audioPCMValueRe_sound (value : List Char) (m : PCMMatch)
    (h : audioPCMValueRe value = some m) :
    ∃ e : ExplicitValue, e.WellFormed ∧ e.text = value ∧
      m = ⟨e.path, e.rate, e.channels, e.fmt⟩ := by
  unfold audioPCMValueRe at h
  rcases h1 : value.span (fun c => c != ';') with ⟨path, _ | ⟨c1, r1⟩⟩
  · simp only [h1, reduceCtorEq] at h
  rcases h2 : r1.span isDigit with ⟨rate, _ | ⟨c2, r2⟩⟩
  · simp only [h1, h2, reduceCtorEq, ite_self] at h
  rcases h3 : r2.span isDigit with ⟨channels, _ | ⟨c3, r3⟩⟩
  · simp only [h1, h2, h3, reduceCtorEq, ite_self] at h
  simp only [h1, h2, h3] at h
  split at h
  · exact absurd h (by simp)
  rename_i hp
  split at h
  · exact absurd h (by simp)
  rename_i hr
  split at h
  · exact absurd h (by simp)
  rename_i hc
  split at h
  swap
  · exact absurd h (by simp)
  rename_i hf
  push_neg at hp hr hc
  obtain ⟨hp, rfl⟩ := hp
  obtain ⟨hr, rfl⟩ := hr
  obtain ⟨hc, rfl⟩ := hc
  obtain ⟨s, w, en, rfl, hs, hw, hwd, hen⟩ := formatRe_sound r3 hf
  obtain ⟨e1, hpd⟩ := span_split _ _ _ h1
  obtain ⟨e2, hrd⟩ := span_split _ _ _ h2
  obtain ⟨e3, hcd⟩ := span_split _ _ _ h3
  injection h with h
  refine ⟨⟨path, rate, channels, s, w, en⟩, ⟨hp, ?_, hr, hrd, hc, hcd, hs, hw, hwd, hen⟩, ?_, ?_⟩
  · intro c hc; simpa using hpd c hc
  · simp only [ExplicitValue.text, ExplicitValue.fmt]
    rw [e1, e2, e3]
  · rw [← h]; rfl

theorem Bits_fmt (e : ExplicitValue) (h : e.WellFormed) :
    format.Bits e.fmt = .ok (decimal e.width : Int) := by
  obtain ⟨-, -, -, -, -, -, -, hw, hwd, he⟩ := h
  obtain ⟨p, r, c, s, w, en⟩ := e
  simp only [ExplicitValue.fmt] at *
  have hen : en < '0' ∨ '9' < en := by
    rcases he with rfl | rfl <;> decide
  rcases hw with hw | hw
  · obtain ⟨d, rfl⟩ := List.length_eq_one.mp hw
    have hd : ∀ c ∈ [d], isDigit c = true := hwd
    have hlt : decimal [d] < 2 ^ 63 := by
      have := digitVal_le d (hwd d (List.mem_singleton_self d))
      simp only [decimal, List.foldl]
      omega
    have hA := Atoi_digits [d] (by simp) hd
    rw [if_pos hlt] at hA
    simp [format.Bits, hen, hA]
  · obtain ⟨d1, d2, rfl⟩ := List.length_eq_two.mp hw
    have hd2 : ¬ (d2 < '0' ∨ '9' < d2) := by
      rw [outside_digits_iff, hwd d2 (by simp)]; simp
    have hlt : decimal [d1, d2] < 2 ^ 63 := by
      have := digitVal_le d1 (hwd d1 (by simp))
      have := digitVal_le d2 (hwd d2 (by simp))
      simp only [decimal, List.foldl]
      omega
    have hA := Atoi_digits [d1, d2] (by simp) hwd
    rw [if_pos hlt] at hA
    simp [format.Bits, hd2, hA]

theorem audioGenericValueRe_semicolon (value : List Char) (h : ';' ∈ value) :
    audioGenericValueRe value = none := by
  unfold audioGenericValueRe
  rw [if_neg]
  rintro ⟨-, hall⟩
  rw [List.all_eq_true] at hall
  simpa using hall ';' h

theorem parseMappingValue_text (env : Env) (pwd : List Char) (e : ExplicitValue)
    (h : e.WellFormed) :
    parseMappingValue env pwd e.text =
      if decimal e.rate < 2 ^ 63 ∧ decimal e.channels < 2 ^ 63 then
        (if (decimal e.width : Int).tmod 8 ≠ 0 then .ok (.error (.bits e.fmt))
         else match env.osOpen (env.resolvePath pwd e.path) with
          | some fd => .ok (.ok ⟨fd, decimal e.rate, decimal e.channels, e.fmt⟩)
          | none => .ok (.error .cannotOpen))
      else .ok (.error .atoi) := by
  have hsemi : ';' ∈ e.text := by simp [ExplicitValue.text]
  have hg := audioGenericValueRe_semicolon _ hsemi
  have hm := audioPCMValueRe_text e h
  have hb := Bits_fmt e h
  have hr := Atoi_digits e.rate h.2.2.1 h.2.2.2.1
  have hc := Atoi_digits e.channels h.2.2.2.2.1 h.2.2.2.2.2.1
  simp only [parseMappingValue, hg, hm, hr, hc, hb]
  by_cases h1 : decimal e.rate < 2 ^ 63
  · by_cases h2 : decimal e.channels < 2 ^ 63
    · simp only [h1, h2, if_true, and_self]
      by_cases h3 : (decimal e.width : Int).tmod 8 ≠ 0
      · rw [if_pos h3, if_pos h3]
      · rw [if_neg h3, if_neg h3]
        cases env.osOpen (env.resolvePath pwd e.path) <;> rfl
    · simp only [h1, h2, if_true, if_false, and_false]
  · simp only [h1, if_false, false_and]

theorem tmod_natCast (n : Nat) : ((n : Int).tmod 8 = 0) ↔ n % 8 = 0 := by
  rw [Int.tmod_eq_emod (by omega) (by omega)]
  omega

/-- C2: a value with a `;` that is not in the explicit grammar is refused with the
parse error; for a value in the grammar `format.Bits` returns the number written
by the digit run of the format without panicking, a width that is not a multiple
of 8 makes `parseMappingValue` return an error, and for a width that is a
multiple of 8 the source it returns carries exactly the written rate, channel
count and format (the only other outcomes being the range error of
`strconv.Atoi` and the error of `os.Open`). -/
theorem parseMappingValue_explicit (env : Env) (pwd value : List Char) (hsemi : ';' ∈ value) :
    ((∀ e : ExplicitValue, e.WellFormed → e.text ≠ value) →
      parseMappingValue env pwd value = .ok (.error .noMatch)) ∧
    (∀ e : ExplicitValue, e.WellFormed → e.text = value →
      format.Bits e.fmt = .ok (decimal e.width : Int) ∧
      (decimal e.width % 8 ≠ 0 →
        ∃ err, parseMappingValue env pwd value = .ok (.error err)) ∧
      (decimal e.width % 8 = 0 →
        parseMappingValue env pwd value =
          if decimal e.rate < 2 ^ 63 ∧ decimal e.channels < 2 ^ 63 then
            match env.osOpen (env.resolvePath pwd e.path) with
            | some fd => .ok (.ok ⟨fd, decimal e.rate, decimal e.channels, e.fmt⟩)
            | none => .ok (.error .cannotOpen)
          else .ok (.error .atoi))) := by
  constructor
  · intro hno
    have hg := audioGenericValueRe_semicolon _ hsemi
    cases hm : audioPCMValueRe value with
    | none => simp only [parseMappingValue, hg, hm]
    | some m =>
      obtain ⟨e, hwf, htext, -⟩ := audioPCMValueRe_sound value m hm
      exact absurd htext (hno e hwf)
  · intro e hwf htext
    subst htext
    refine ⟨Bits_fmt e hwf, ?_, ?_⟩
    · intro hb
      have hb2 : (decimal e.width : Int).tmod 8 ≠ 0 := fun h => hb ((tmod_natCast _).mp h)
      rw [parseMappingValue_text env pwd e hwf, if_pos hb2]
      split_ifs
      · exact ⟨_, rfl⟩
      · exact ⟨_, rfl⟩
    · intro hb
      have hb2 : ¬ (decimal e.width : Int).tmod 8 ≠ 0 := fun h => h ((tmod_natCast _).mpr hb)
      rw [parseMappingValue_text env pwd e hwf, if_neg hb2]

theorem trackS16le_wellFormed : trackS16le.WellFormed := by
  simp only [ExplicitValue.WellFormed, trackS16le]
  decide

theorem trackS5be_wellFormed : trackS5be.WellFormed := by
  simp only [ExplicitValue.WellFormed, trackS5be]
  decide

/-- C2 at the two values of the specification and at `a;b`:
`track.raw;44100:2:s16le` gives a source with rate 44100, two channels and
format `s16le` of 16 bits, `track.raw;44100:2:s5be` gives an error, and `a;b`,
which is outside the grammar, gives the parse error. -/
theorem parseMappingValue_explicit_witness :
    (format.Bits trackS16le.fmt = .ok 16 ∧
      parseMappingValue exampleEnv [] trackS16le.text =
        .ok (.ok ⟨[1, 2, 3, 4], 44100, 2, ['s', '1', '6', 'l', 'e']⟩)) ∧
    (format.Bits trackS5be.fmt = .ok 5 ∧
      ∃ err, parseMappingValue exampleEnv [] trackS5be.text = .ok (.error err)) ∧
    parseMappingValue exampleEnv [] ['a', ';', 'b'] = .ok (.error .noMatch) := by
  have h1 := (parseMappingValue_explicit exampleEnv [] trackS16le.text (by decide)).2
    trackS16le trackS16le_wellFormed rfl
  have h2 := (parseMappingValue_explicit exampleEnv [] trackS5be.text (by decide)).2
    trackS5be trackS5be_wellFormed rfl
  have h3 := (parseMappingValue_explicit exampleEnv [] ['a', ';', 'b'] (by decide)).1
    (by
      intro e hwf htext
      have hm := audioPCMValueRe_text e hwf
      rw [htext] at hm
      have hn : audioPCMValueRe ['a', ';', 'b'] = none := by decide
      rw [hn] at hm
      exact absurd hm (by simp))
  refine ⟨⟨?_, ?_⟩, ⟨?_, ?_⟩, h3⟩
  · rw [h1.1]; rfl
  · have h := h1.2.2 (by decide)
    rw [h, if_pos (by decide)]
    rfl
  · rw [h2.1]; rfl
  · exact h2.2.1 (by decide)

theorem foldlM_eq_ok_foldl {σ β ε : Type} (l : List β) (f : σ → β → Except ε σ)
    (g : σ → β → σ) (h : ∀ s, ∀ b ∈ l, f s b = .ok (g s b)) (init : σ) :
    l.foldlM f init = .ok (l.foldl g init) := by
  induction l generalizing init with
  | nil => rfl
  | cons b t ih =>
    rw [List.foldlM_cons, h init b (List.mem_cons_self _ _)]
    exact ih (fun s c hc => h s c (List.mem_cons_of_mem _ hc)) (g init b)

theorem waveFold_length (p : Nat → Nat) (n : Nat) (td : List Nat) :
    ((List.range n).foldl (fun td x => td.set (audioTexWidth + x) (p x)) td).length
      = td.length := by
  induction n with
  | zero => rfl
  | succ n ih => rw [List.range_succ, List.foldl_append]; simp [ih]

theorem waveFold_get (p : Nat → Nat) (n : Nat) (td : List Nat)
    (hlen : audioTexWidth + n ≤ td.length) (j : Nat) :
    ((List.range n).foldl (fun td x => td.set (audioTexWidth + x) (p x)) td)[j]?
      = if audioTexWidth ≤ j ∧ j < audioTexWidth + n then some (p (j - audioTexWidth))
        else td[j]? := by
  induction n with
  | zero =>
    simp only [List.range_zero, List.foldl_nil]
    rw [if_neg]; omega
  | succ n ih =>
    rw [List.range_succ, List.foldl_append]
    simp only [List.foldl_cons, List.foldl_nil]
    rw [List.getElem?_set, waveFold_length, ih (by omega)]
    by_cases hj : audioTexWidth + n = j
    · subst hj
      rw [if_pos rfl, if_pos (by omega), if_pos (by omega)]
      simp
    · rw [if_neg hj]
      by_cases h2 : audioTexWidth ≤ j ∧ j < audioTexWidth + n
      · rw [if_pos h2, if_pos (by omega)]
      · rw [if_neg h2, if_neg (by omega)]
theorem fftFold_length (p q : Nat → Nat) (n : Nat) (td : List Nat) :
    ((List.range n).foldl (fun td x => (td.set (x * 2) (p x)).set (x * 2 + 1) (q x)) td).length
      = td.length := by
  induction n with
  | zero => rfl
  | succ n ih => rw [List.range_succ, List.foldl_append]; simp [ih]

theorem fftFold_get (p q : Nat → Nat) (n : Nat) (td : List Nat)
    (hlen : 2 * n ≤ td.length) (j : Nat) :
    ((List.range n).foldl (fun td x => (td.set (x * 2) (p x)).set (x * 2 + 1) (q x)) td)[j]?
      = if j < 2 * n then some (if j % 2 = 0 then p (j / 2) else q (j / 2))
        else td[j]? := by
  induction n with
  | zero =>
    simp only [List.range_zero, List.foldl_nil]
    rw [if_neg]; omega
  | succ n ih =>
    rw [List.range_succ, List.foldl_append]
    simp only [List.foldl_cons, List.foldl_nil]
    rw [List.getElem?_set, List.getElem?_set, List.length_set, fftFold_length, ih (by omega)]
    by_cases h1 : n * 2 + 1 = j
    · have a1 : n * 2 + 1 < td.length := by omega
      have a2 : j < 2 * (n + 1) := by omega
      have a3 : ¬ j % 2 = 0 := by omega
      have a4 : j / 2 = n := by omega
      rw [if_pos h1, if_pos a1, if_pos a2, if_neg a3, a4]
    · rw [if_neg h1]
      by_cases h0 : n * 2 = j
      · have a1 : n * 2 < td.length := by omega
        have a2 : j < 2 * (n + 1) := by omega
        have a3 : j % 2 = 0 := by omega
        have a4 : j / 2 = n := by omega
        rw [if_pos h0, if_pos a1, if_pos a2, if_pos a3, a4]
      · rw [if_neg h0]
        by_cases h2 : j < 2 * n
        · have a2 : j < 2 * (n + 1) := by omega
          rw [if_pos h2, if_pos a2]
        · have a2 : ¬ j < 2 * (n + 1) := by omega
          rw [if_neg h2, if_neg a2]

theorem period_length (samples : List ℚ) : (PreRender.period samples).length = audioTexWidth := by
  unfold PreRender.period
  split_ifs with h
  · simp
  · rw [List.length_drop]; omega

theorem waveLoop_ok (period : List ℚ) (td : List Nat) (hp : audioTexWidth ≤ period.length) :
    PreRender.waveLoop period td = .ok ((List.range audioTexWidth).foldl
      (fun td x => td.set (audioTexWidth + x) (encodeByte (period.getD x 0))) td) := by
  unfold PreRender.waveLoop
  apply foldlM_eq_ok_foldl
  intro s x hx
  rw [List.mem_range] at hx
  have hlt : x < period.length := by omega
  simp [List.getD, List.getElem?_eq_getElem hlt]

theorem fftLoop_ok (freqs : List (ℚ × ℚ)) (td : List Nat)
    (hf : audioTexWidth / 2 ≤ freqs.length) :
    PreRender.fftLoop freqs td = .ok ((List.range (audioTexWidth / 2)).foldl
      (fun td x => (td.set (x * 2) (encodeByte (freqs.getD x 0).1)).set (x * 2 + 1)
        (encodeByte (freqs.getD x 0).2)) td) := by
  unfold PreRender.fftLoop
  apply foldlM_eq_ok_foldl
  intro s x hx
  rw [List.mem_range] at hx
  have hlt : x < freqs.length := by omega
  simp [List.getD, List.getElem?_eq_getElem hlt]

/-- The buffer `PreRender` builds, position by position: pairs of encoded real
and imaginary parts in row 0, encoded window samples in row 1. -/
theorem textureData_ok (FFTReal : List ℚ → List (ℚ × ℚ)) (samples : List ℚ)
    (hf : 256 ≤ (FFTReal (PreRender.period samples)).length) :
    ∃ td, PreRender.textureData FFTReal samples = .ok td ∧ td.length = 1024 ∧
      ∀ j, td[j]? =
        if j < 512 then
          some (if j % 2 = 0 then encodeByte ((FFTReal (PreRender.period samples)).getD (j / 2) 0).1
                else encodeByte ((FFTReal (PreRender.period samples)).getD (j / 2) 0).2)
        else if j < 1024 then some (encodeByte ((PreRender.period samples).getD (j - 512) 0))
        else none := by
  have hpl := period_length samples
  have hw : audioTexWidth = 512 := rfl
  simp only [PreRender.textureData]
  rw [fftLoop_ok _ _ (by rw [hw]; omega)]
  simp only
  rw [waveLoop_ok _ _ (by omega)]
  refine ⟨_, rfl, ?_, ?_⟩
  · rw [waveFold_length (fun x => encodeByte ((PreRender.period samples).getD x 0)),
      fftFold_length (fun x => encodeByte ((FFTReal (PreRender.period samples)).getD x 0).1)
        (fun x => encodeByte ((FFTReal (PreRender.period samples)).getD x 0).2),
      List.length_replicate]
    rfl
  · intro j
    rw [waveFold_get (fun x => encodeByte ((PreRender.period samples).getD x 0)),
      fftFold_get (fun x => encodeByte ((FFTReal (PreRender.period samples)).getD x 0).1)
        (fun x => encodeByte ((FFTReal (PreRender.period samples)).getD x 0).2)]
    · simp only [hw, List.getElem?_replicate]
      split_ifs <;> first | rfl | omega
    · rw [List.length_replicate]
      decide
    · rw [fftFold_length (fun x => encodeByte ((FFTReal (PreRender.period samples)).getD x 0).1)
        (fun x => encodeByte ((FFTReal (PreRender.period samples)).getD x 0).2),
        List.length_replicate]
      decide

/-! ## The byte encoding and the window of `PreRender` -/

theorem uint8OfFloat_floor (x : ℚ) (h0 : 0 ≤ x) (h1 : x < 256) :
    uint8OfFloat x = ⌊x⌋.toNat := by
  unfold uint8OfFloat
  have hn : 0 ≤ x.num := Rat.num_nonneg.mpr h0
  rw [Int.tdiv_eq_ediv hn (by positivity), ← Rat.floor_def]
  have hf0 : 0 ≤ ⌊x⌋ := Int.floor_nonneg.mpr h0
  have hf1 : ⌊x⌋ < 256 := Int.floor_lt.mpr (by exact_mod_cast h1)
  rw [Int.emod_eq_of_lt hf0 hf1]

theorem roundF64_eq (q : ℚ) (m k : ℤ) (h : q = (m : ℚ) * 2 ^ k) (hm : |m| < 2 ^ 53)
    (hk : -1074 ≤ k) : roundF64 q = q := by
  rw [h]
  exact roundF64_exact m k hm hk

theorem roundF64_unit (q : ℚ) (b : ℤ) (hb : (b : ℚ) < 2 ^ 53) (h0 : 0 ≤ q) (h1 : q ≤ b) :
    0 ≤ roundF64 q ∧ roundF64 q ≤ b := by
  have hq : |q| < 2 ^ ((0 : ℤ) + 53) := by
    rw [abs_of_nonneg h0]
    have : (2 : ℚ) ^ ((0 : ℤ) + 53) = 2 ^ 53 := by norm_num
    rw [this]
    linarith
  have h := roundF64_between q 0 b 0 (by decide) hq (by simpa using h0) (by simpa using h1)
  simpa using h

theorem roundF64_half (q : ℚ) (h0 : -(1 / 2) ≤ q) (h1 : q ≤ 1 / 2) :
    -(1 / 2) ≤ roundF64 q ∧ roundF64 q ≤ 1 / 2 := by
  have hq : |q| < 2 ^ ((-1 : ℤ) + 53) := by
    have : (2 : ℚ) ^ ((-1 : ℤ) + 53) = 2 ^ 52 := by norm_num
    rw [this, abs_lt]
    constructor <;> linarith
  have e : (2 : ℚ) ^ (-1 : ℤ) = 1 / 2 := by norm_num
  have h := roundF64_between q (-1) 1 (-1) (by decide) hq
    (by rw [e]; push_cast; linarith) (by rw [e]; push_cast; linarith)
  rw [e] at h
  push_cast at h
  constructor
  · linarith [h.1]
  · linarith [h.2]

theorem scaled_range (v : ℚ) (h1 : -1 ≤ v) (h2 : v ≤ 1) :
    0 ≤ PreRender.scaled v ∧ PreRender.scaled v ≤ 255 := by
  have t1 := roundF64_half (v * (1 / 2)) (by linarith) (by linarith)
  have t2 := roundF64_unit (roundF64 (v * (1 / 2)) + 1 / 2) 1 (by norm_num)
    (by linarith [t1.1]) (by push_cast; linarith [t1.2])
  have t3 := roundF64_unit (roundF64 (roundF64 (v * (1 / 2)) + 1 / 2) * 255) 255 (by norm_num)
    (by linarith [t2.1]) (by push_cast at t2 ⊢; linarith [t2.2])
  push_cast at t3
  exact t3

theorem encodeByte_floor (v : ℚ) (h1 : -1 ≤ v) (h2 : v ≤ 1) :
    encodeByte v = ⌊PreRender.scaled v⌋.toNat := by
  have h := scaled_range v h1 h2
  unfold encodeByte
  exact uint8OfFloat_floor _ h.1 (by linarith [h.2])

theorem scaled_zero : PreRender.scaled 0 = 255 / 2 := by
  have e1 : roundF64 ((0 : ℚ) * (1 / 2)) = 0 := by rw [zero_mul, roundF64_zero]
  have e2 : roundF64 ((0 : ℚ) + 1 / 2) = 1 / 2 := by
    rw [zero_add]
    exact roundF64_eq _ 1 (-1) (by norm_num) (by decide) (by decide)
  have e3 : roundF64 ((1 / 2 : ℚ) * 255) = 255 / 2 := by
    rw [roundF64_eq _ 255 (-1) (by norm_num) (by decide) (by decide)]
    norm_num
  unfold PreRender.scaled fmul fadd
  rw [e1, e2, e3]

theorem scaled_neg_half : PreRender.scaled (-1 / 2) = 255 / 4 := by
  have e1 : roundF64 ((-1 / 2 : ℚ) * (1 / 2)) = -1 / 4 := by
    rw [roundF64_eq _ (-1) (-2) (by norm_num) (by decide) (by decide)]
    norm_num
  have e2 : roundF64 ((-1 / 4 : ℚ) + 1 / 2) = 1 / 4 := by
    rw [roundF64_eq _ 1 (-2) (by norm_num) (by decide) (by decide)]
    norm_num
  have e3 : roundF64 ((1 / 4 : ℚ) * 255) = 255 / 4 := by
    rw [roundF64_eq _ 255 (-2) (by norm_num) (by decide) (by decide)]
    norm_num
  unfold PreRender.scaled fmul fadd
  rw [e1, e2, e3]

theorem encodeByte_zero : encodeByte 0 = 127 := by
  rw [encodeByte_floor 0 (by norm_num) (by norm_num), scaled_zero]
  have : ⌊(255 / 2 : ℚ)⌋ = 127 := by
    rw [Int.floor_eq_iff]
    norm_num
  rw [this]
  rfl

theorem encodeByte_neg_half : encodeByte (-1 / 2) = 63 := by
  rw [encodeByte_floor _ (by norm_num) (by norm_num), scaled_neg_half]
  have : ⌊(255 / 4 : ℚ)⌋ = 63 := by
    rw [Int.floor_eq_iff]
    norm_num
  rw [this]
  rfl

theorem roundHalfEven_err (x : ℚ) : |(roundHalfEven x : ℚ) - x| ≤ 1 / 2 := by
  have h1 : (⌊x⌋ : ℚ) ≤ x := Int.floor_le x
  have h2 : x < (⌊x⌋ : ℚ) + 1 := Int.lt_floor_add_one x
  unfold roundHalfEven
  rw [abs_le]
  split_ifs with a b c
  · constructor <;> linarith
  · push_cast
    constructor <;> linarith
  · constructor <;> linarith
  · push_cast
    constructor <;> linarith

theorem roundF64_err (q : ℚ) (k : ℤ) (hk : -1074 ≤ k) (hq : |q| < 2 ^ (k + 53)) :
    |roundF64 q - q| ≤ 2 ^ k / 2 := by
  have hkpos : (0 : ℚ) < 2 ^ k := zpow_pos (by norm_num) _
  by_cases hq0 : q = 0
  · subst hq0
    rw [roundF64_zero, sub_zero, abs_zero]
    linarith
  have he := ulpExp_le q k hq0 hk hq
  have hpos : (0 : ℚ) < 2 ^ ulpExp q := zpow_pos (by norm_num) _
  have hmono : (2 : ℚ) ^ ulpExp q ≤ 2 ^ k := zpow_le_zpow_right₀ (by norm_num) he
  have hx := roundHalfEven_err (q / 2 ^ ulpExp q)
  have hd : roundF64 q - q
      = ((roundHalfEven (q / 2 ^ ulpExp q) : ℚ) - q / 2 ^ ulpExp q) * 2 ^ ulpExp q := by
    unfold roundF64
    field_simp
  rw [hd, abs_mul, abs_of_pos hpos]
  calc |(roundHalfEven (q / 2 ^ ulpExp q) : ℚ) - q / 2 ^ ulpExp q| * 2 ^ ulpExp q
      ≤ 1 / 2 * 2 ^ ulpExp q := mul_le_mul_of_nonneg_right hx (le_of_lt hpos)
    _ ≤ 1 / 2 * 2 ^ k := mul_le_mul_of_nonneg_left hmono (by norm_num)
    _ = 2 ^ k / 2 := by ring

theorem scaled_err (v : ℚ) (h1 : -1 ≤ v) (h2 : v ≤ 1) :
    |PreRender.scaled v - (v * (1 / 2) + 1 / 2) * 255| ≤ 1 / 2 ^ 44 := by
  have t1 := roundF64_half (v * (1 / 2)) (by linarith) (by linarith)
  have t2 := roundF64_unit (roundF64 (v * (1 / 2)) + 1 / 2) 1 (by norm_num)
    (by linarith [t1.1]) (by push_cast; linarith [t1.2])
  push_cast at t2
  have d1 := roundF64_err (v * (1 / 2)) (-53) (by decide) (by
    have : (2 : ℚ) ^ ((-53 : ℤ) + 53) = 1 := by norm_num
    rw [this, abs_lt]
    constructor <;> linarith)
  have d2 := roundF64_err (roundF64 (v * (1 / 2)) + 1 / 2) (-52) (by decide) (by
    have : (2 : ℚ) ^ ((-52 : ℤ) + 53) = 2 := by norm_num
    rw [this, abs_lt]
    constructor <;> linarith [t1.1, t1.2])
  have d3 := roundF64_err (roundF64 (roundF64 (v * (1 / 2)) + 1 / 2) * 255) (-45) (by decide) (by
    have : (2 : ℚ) ^ ((-45 : ℤ) + 53) = 256 := by norm_num
    rw [this, abs_lt]
    constructor <;> linarith [t2.1, t2.2])
  have e1 : (2 : ℚ) ^ (-53 : ℤ) / 2 = 1 / 2 ^ 54 := by norm_num
  have e2 : (2 : ℚ) ^ (-52 : ℤ) / 2 = 1 / 2 ^ 53 := by norm_num
  have e3 : (2 : ℚ) ^ (-45 : ℤ) / 2 = 1 / 2 ^ 46 := by norm_num
  rw [e1, abs_le] at d1
  rw [e2, abs_le] at d2
  rw [e3, abs_le] at d3
  unfold PreRender.scaled fmul fadd
  rw [abs_le]
  constructor
  · norm_num at d1 d2 d3 ⊢
    linarith [d1.1, d1.2, d2.1, d2.2, d3.1, d3.2]
  · norm_num at d1 d2 d3 ⊢
    linarith [d1.1, d1.2, d2.1, d2.2, d3.1, d3.2]

theorem roundF64_below_one : roundF64 (1 - 1 / 2 ^ 54) = 1 := by
  have hq0 : (0 : ℚ) < 1 - 1 / 2 ^ 54 := by norm_num
  have hlog : Int.log 2 |(1 - 1 / 2 ^ 54 : ℚ)| = -1 := by
    rw [abs_of_pos hq0]
    apply le_antisymm
    · have h : Int.log 2 (1 - 1 / 2 ^ 54 : ℚ) < 0 := by
        rw [← Int.lt_zpow_iff_log_lt (by decide) hq0]
        norm_num
      omega
    · rw [← Int.zpow_le_iff_le_log (by decide) hq0]
      norm_num
  have he : ulpExp (1 - 1 / 2 ^ 54 : ℚ) = -53 := by
    unfold ulpExp
    rw [hlog]
    decide
  have hx : (1 - 1 / 2 ^ 54 : ℚ) / 2 ^ (-53 : ℤ) = 2 ^ 53 - 1 / 2 := by norm_num
  have hfl : ⌊(2 ^ 53 - 1 / 2 : ℚ)⌋ = 2 ^ 53 - 1 := by
    rw [Int.floor_eq_iff]
    norm_num
  have hr : roundHalfEven (2 ^ 53 - 1 / 2 : ℚ) = 2 ^ 53 := by
    unfold roundHalfEven
    rw [hfl]
    have c1 : ¬ ((2 ^ 53 - 1 / 2 : ℚ) - ((2 ^ 53 - 1 : ℤ) : ℚ) < 1 / 2) := by norm_num
    have c2 : ¬ ((1 / 2 : ℚ) < (2 ^ 53 - 1 / 2 : ℚ) - ((2 ^ 53 - 1 : ℤ) : ℚ)) := by norm_num
    have c3 : ¬ ((2 ^ 53 - 1 : ℤ) % 2 = 0) := by decide
    rw [if_neg c1, if_neg c2, if_neg c3]
    norm_num
  unfold roundF64
  rw [he, hx, hr]
  norm_num

theorem scaled_below_one : PreRender.scaled (1 - 1 / 2 ^ 53) = 255 := by
  have e1 : roundF64 ((1 - 1 / 2 ^ 53 : ℚ) * (1 / 2)) = 1 / 2 - 1 / 2 ^ 54 := by
    rw [roundF64_eq _ (2 ^ 53 - 1) (-54) (by norm_num) (by decide) (by decide)]
    norm_num
  have e2 : roundF64 ((1 / 2 - 1 / 2 ^ 54 : ℚ) + 1 / 2) = 1 := by
    have : (1 / 2 - 1 / 2 ^ 54 : ℚ) + 1 / 2 = 1 - 1 / 2 ^ 54 := by ring
    rw [this, roundF64_below_one]
  have e3 : roundF64 ((1 : ℚ) * 255) = 255 := by
    rw [roundF64_eq _ 255 0 (by norm_num) (by decide) (by decide)]
    norm_num
  unfold PreRender.scaled fmul fadd
  rw [e1, e2, e3]

theorem period_short (samples : List ℚ) (h : samples.length < 512) :
    PreRender.period samples = List.replicate 512 0 := by
  unfold PreRender.period
  exact if_pos h

theorem period_long (samples : List ℚ) (h : 512 ≤ samples.length) :
    PreRender.period samples = samples.drop (samples.length - 512) := by
  unfold PreRender.period
  have : ¬ samples.length < audioTexWidth := by
    show ¬ samples.length < 512
    omega
  exact if_neg this

theorem textureData_row1 (FFTReal : List ℚ → List (ℚ × ℚ)) (samples : List ℚ) (td : List Nat)
    (hget : ∀ j, td[j]? =
        if j < 512 then
          some (if j % 2 = 0 then encodeByte ((FFTReal (PreRender.period samples)).getD (j / 2) 0).1
                else encodeByte ((FFTReal (PreRender.period samples)).getD (j / 2) 0).2)
        else if j < 1024 then some (encodeByte ((PreRender.period samples).getD (j - 512) 0))
        else none) :
    td.drop 512 = (PreRender.period samples).map encodeByte := by
  have hpl : (PreRender.period samples).length = 512 := period_length samples
  apply List.ext_getElem?
  intro i
  rw [List.getElem?_drop, hget (512 + i), List.getElem?_map]
  have a1 : ¬ 512 + i < 512 := by omega
  rw [if_neg a1]
  by_cases hi : i < 512
  · have a2 : 512 + i < 1024 := by omega
    have a3 : 512 + i - 512 = i := by omega
    have a4 : i < (PreRender.period samples).length := by omega
    rw [if_pos a2, a3]
    simp [List.getD_eq_getElem?_getD, List.getElem?_eq_getElem a4]
  · have a2 : ¬ 512 + i < 1024 := by omega
    have a4 : (PreRender.period samples).length ≤ i := by omega
    rw [if_neg a2, List.getElem?_eq_none a4]
    rfl

/-- The claim C1 fails: for the one-sample slice `[1]` the window of `PreRender`
is 512 zeros, not 511 zeros followed by the sample. -/
theorem PreRender_window_counterexample :
    PreRender.period [1] = List.replicate 512 0 ∧
    PreRender.period [1] ≠ (List.replicate 512 (0 : ℚ) ++ [1]).drop ([1] : List ℚ).length := by
  refine ⟨period_short [1] (by decide), ?_⟩
  rw [period_short [1] (by decide)]
  intro h
  have hm : (1 : ℚ) ∈ (List.replicate 512 (0 : ℚ) ++ [1]).drop ([1] : List ℚ).length := by
    rw [List.drop_append_of_le_length (by rw [List.length_replicate]; decide)]
    exact List.mem_append_right _ (List.mem_singleton_self 1)
  rw [← h] at hm
  exact absurd (List.eq_of_mem_replicate hm) (by norm_num)

/-- C1, amended: row 1 of the texture is the byte encoding of the window, sample
by sample; with at least 512 samples the window is the last 512 elements of
(512 zeros followed by the samples), which are the last 512 samples; with fewer
than 512 samples the window is 512 zeros. -/
theorem PreRender_window (FFTReal : List ℚ → List (ℚ × ℚ)) (samples : List ℚ)
    (hf : 256 ≤ (FFTReal (PreRender.period samples)).length) :
    (∃ td, PreRender.textureData FFTReal samples = .ok td ∧
      td.drop 512 = (PreRender.period samples).map encodeByte) ∧
    (512 ≤ samples.length →
      PreRender.period samples = (List.replicate 512 0 ++ samples).drop samples.length ∧
      PreRender.period samples = samples.drop (samples.length - 512)) ∧
    (samples.length < 512 → PreRender.period samples = List.replicate 512 0) := by
  refine ⟨?_, ?_, period_short samples⟩
  · obtain ⟨td, h1, -, h3⟩ := textureData_ok FFTReal samples hf
    exact ⟨td, h1, textureData_row1 FFTReal samples td h3⟩
  · intro h
    refine ⟨?_, period_long samples h⟩
    have hnil : (List.replicate 512 (0 : ℚ)).drop samples.length = [] :=
      List.drop_eq_nil_of_le (by rw [List.length_replicate]; exact h)
    rw [period_long samples h, List.drop_append_eq_append_drop, hnil, List.length_replicate,
      List.nil_append]

/-- C1 at a slice of 513 samples, the first 1 and the others 0, and at the
one-sample slice `[1]`. -/
theorem PreRender_window_witness :
    PreRender.period ((1 : ℚ) :: List.replicate 512 0) = List.replicate 512 0 ∧
    PreRender.period [1] = List.replicate 512 0 := by
  have hl : ((1 : ℚ) :: List.replicate 512 0).length = 513 := by
    rw [List.length_cons, List.length_replicate]
  have h1 := (PreRender_window exampleTransform ((1 : ℚ) :: List.replicate 512 0)
    (by rw [exampleTransform, List.length_map, period_length]; decide)).2.1
    (by rw [hl]; decide)
  have h2 := (PreRender_window exampleTransform [1]
    (by rw [exampleTransform, List.length_map, period_length]; decide)).2.2 (by decide)
  refine ⟨?_, h2⟩
  rw [h1.2, hl]
  rfl

/-- The claim C6 fails: for the window sample `-0.5` the product is `63.75`, the
byte written is 63, and the nearest integer is 64. -/
theorem encodeByte_counterexample :
    encodeByte (-1 / 2) = 63 ∧ round (((-1 / 2 : ℚ) * (1 / 2) + 1 / 2) * 255) = 64 := by
  refine ⟨encodeByte_neg_half, ?_⟩
  rw [round_eq, Int.floor_eq_iff]
  norm_num

/-- C6, amended: for a window sample, a real part or an imaginary part `v` in
`[-1, 1]` the byte `PreRender` writes is the `float64` product
`(v * 0.5 + 0.5) * 255.0`, each operation rounded to the nearest `float64`, with
its fraction discarded; that product lies in `[0, 255]` and within `2^-44` of
the exact value. The byte is at offset `512 + x` for sample `x` of the window
and at offsets `2 * x` and `2 * x + 1` for bin `x` of the transform. -/
theorem PreRender_bytes (FFTReal : List ℚ → List (ℚ × ℚ)) (samples : List ℚ)
    (hf : 256 ≤ (FFTReal (PreRender.period samples)).length) :
    (∃ td, PreRender.textureData FFTReal samples = .ok td ∧
      (∀ (x : Nat) (v : ℚ), (PreRender.period samples)[x]? = some v → -1 ≤ v → v ≤ 1 →
        td[512 + x]? = some ⌊PreRender.scaled v⌋.toNat) ∧
      (∀ (x : Nat) (c : ℚ × ℚ), x < 256 → (FFTReal (PreRender.period samples))[x]? = some c →
        (-1 ≤ c.1 → c.1 ≤ 1 → td[2 * x]? = some ⌊PreRender.scaled c.1⌋.toNat) ∧
        (-1 ≤ c.2 → c.2 ≤ 1 → td[2 * x + 1]? = some ⌊PreRender.scaled c.2⌋.toNat))) ∧
    (∀ v : ℚ, -1 ≤ v → v ≤ 1 →
      0 ≤ PreRender.scaled v ∧ PreRender.scaled v ≤ 255 ∧ ⌊PreRender.scaled v⌋.toNat ≤ 255 ∧
      |PreRender.scaled v - (v * (1 / 2) + 1 / 2) * 255| ≤ 1 / 2 ^ 44) := by
  constructor
  · obtain ⟨td, h1, -, h3⟩ := textureData_ok FFTReal samples hf
    have hpl : (PreRender.period samples).length = 512 := period_length samples
    refine ⟨td, h1, ?_, ?_⟩
    · intro x v hx hv1 hv2
      have hxl : x < (PreRender.period samples).length := by
        by_contra hcon
        rw [List.getElem?_eq_none (by omega)] at hx
        exact absurd hx (by simp)
      have a1 : ¬ 512 + x < 512 := by omega
      have a2 : 512 + x < 1024 := by omega
      have a3 : 512 + x - 512 = x := by omega
      have hg : (PreRender.period samples).getD x 0 = v := by
        simp [List.getD_eq_getElem?_getD, hx]
      rw [h3, if_neg a1, if_pos a2, a3, hg, encodeByte_floor v hv1 hv2]
    · intro x c hx hc
      have hg : (FFTReal (PreRender.period samples)).getD x 0 = c := by
        simp [List.getD_eq_getElem?_getD, hc]
      refine ⟨?_, ?_⟩
      · intro hv1 hv2
        have a1 : 2 * x < 512 := by omega
        have a2 : 2 * x % 2 = 0 := by omega
        have a3 : 2 * x / 2 = x := by omega
        rw [h3, if_pos a1, if_pos a2, a3, hg, encodeByte_floor c.1 hv1 hv2]
      · intro hv1 hv2
        have a1 : 2 * x + 1 < 512 := by omega
        have a2 : ¬ (2 * x + 1) % 2 = 0 := by omega
        have a3 : (2 * x + 1) / 2 = x := by omega
        rw [h3, if_pos a1, if_neg a2, a3, hg, encodeByte_floor c.2 hv1 hv2]
  · intro v hv1 hv2
    have hr := scaled_range v hv1 hv2
    refine ⟨hr.1, hr.2, ?_, scaled_err v hv1 hv2⟩
    have hlt : ⌊PreRender.scaled v⌋ < 256 :=
      Int.floor_lt.mpr (by
        rw [show ((256 : ℤ) : ℚ) = 256 by norm_num]
        linarith [hr.2])
    omega

/-- C6 at the slice of 512 samples that holds `-0.5`, then `1 - 2^-53`, then
zeros, with the stand-in transform: the byte at offset 512 is 63, and so is the
byte at offset 0, for the real part `-0.5` of bin 0; the byte at offset 1, for
its imaginary part 0, is 127; the byte at offset 513 is 255, the rounded product
for `1 - 2^-53` being 255 although the exact product is below 255. -/
theorem PreRender_bytes_witness :
    (∃ td, PreRender.textureData exampleTransform
        ((-1 / 2 : ℚ) :: (1 - 1 / 2 ^ 53 : ℚ) :: List.replicate 510 0) = .ok td ∧
      td[512]? = some 63 ∧ td[0]? = some 63 ∧ td[1]? = some 127 ∧ td[513]? = some 255) ∧
    ((1 - 1 / 2 ^ 53 : ℚ) * (1 / 2) + 1 / 2) * 255 < 255 ∧
    |PreRender.scaled (1 - 1 / 2 ^ 53) - ((1 - 1 / 2 ^ 53 : ℚ) * (1 / 2) + 1 / 2) * 255|
      ≤ 1 / 2 ^ 44 := by
  have hl : ((-1 / 2 : ℚ) :: (1 - 1 / 2 ^ 53 : ℚ) :: List.replicate 510 0).length = 512 := by
    rw [List.length_cons, List.length_cons, List.length_replicate]
  have hp : PreRender.period ((-1 / 2 : ℚ) :: (1 - 1 / 2 ^ 53 : ℚ) :: List.replicate 510 0)
      = (-1 / 2 : ℚ) :: (1 - 1 / 2 ^ 53 : ℚ) :: List.replicate 510 0 := by
    rw [period_long _ (by rw [hl]), hl, Nat.sub_self, List.drop_zero]
  have hmain := PreRender_bytes exampleTransform
    ((-1 / 2 : ℚ) :: (1 - 1 / 2 ^ 53 : ℚ) :: List.replicate 510 0)
    (by rw [exampleTransform, List.length_map, period_length]; decide)
  obtain ⟨⟨td, h1, h2, h3⟩, h4⟩ := hmain
  have hw := h2 0 (-1 / 2) (by rw [hp, List.getElem?_cons_zero]) (by norm_num) (by norm_num)
  have hw1 := h2 1 (1 - 1 / 2 ^ 53)
    (by rw [hp, List.getElem?_cons_succ, List.getElem?_cons_zero]) (by norm_num) (by norm_num)
  have hb := h3 0 (-1 / 2, 0) (by decide) (by
    rw [hp, exampleTransform, List.map_cons, List.getElem?_cons_zero])
  have hre := hb.1 (by norm_num) (by norm_num)
  have him := hb.2 (by norm_num) (by norm_num)
  have f1 : ⌊(255 / 4 : ℚ)⌋.toNat = 63 := by
    have : ⌊(255 / 4 : ℚ)⌋ = 63 := by
      rw [Int.floor_eq_iff]
      norm_num
    rw [this]
    rfl
  have f2 : ⌊(255 / 2 : ℚ)⌋.toNat = 127 := by
    have : ⌊(255 / 2 : ℚ)⌋ = 127 := by
      rw [Int.floor_eq_iff]
      norm_num
    rw [this]
    rfl
  have f3 : ⌊(255 : ℚ)⌋.toNat = 255 := by
    have : ⌊(255 : ℚ)⌋ = 255 := by
      rw [Int.floor_eq_iff]
      norm_num
    rw [this]
    rfl
  refine ⟨⟨td, h1, ?_, ?_, ?_, ?_⟩, by norm_num, (h4 (1 - 1 / 2 ^ 53) (by norm_num)
    (by norm_num)).2.2.2⟩
  · rw [hw, scaled_neg_half, f1]
  · have e : (2 * 0 : Nat) = 0 := rfl
    rw [e] at hre
    rw [hre]
    show some ⌊PreRender.scaled (-1 / 2)⌋.toNat = some 63
    rw [scaled_neg_half, f1]
  · have e : (2 * 0 + 1 : Nat) = 1 := rfl
    rw [e] at him
    rw [him]
    show some ⌊PreRender.scaled 0⌋.toNat = some 127
    rw [scaled_zero, f2]
  · have e : (512 + 1 : Nat) = 513 := rfl
    rw [e] at hw1
    rw [hw1, scaled_below_one, f3]

theorem period_zero (samples : List ℚ) (hz : ∀ v ∈ samples, v = 0) :
    PreRender.period samples = List.replicate 512 0 := by
  by_cases h : samples.length < 512
  · exact period_short samples h
  · rw [List.eq_replicate_iff]
    refine ⟨period_length samples, ?_⟩
    intro b hb
    rw [period_long samples (by omega)] at hb
    exact hz b (List.mem_of_mem_drop hb)

/-- C7: when the transform maps the zero window to zero bins, every all-zero sample
slice gives a texture buffer whose 1024 bytes all equal the encoding of `0.0`,
which is 127. -/
theorem PreRender_silence (FFTReal : List ℚ → List (ℚ × ℚ)) (samples : List ℚ)
    (hz : ∀ v ∈ samples, v = 0)
    (hfft : ∀ x, x < 256 → (FFTReal (List.replicate 512 0))[x]? = some (0, 0)) :
    PreRender.textureData FFTReal samples = .ok (List.replicate 1024 (encodeByte 0)) ∧
    encodeByte 0 = 127 := by
  refine ⟨?_, encodeByte_zero⟩
  have hp := period_zero samples hz
  have hf : 256 ≤ (FFTReal (PreRender.period samples)).length := by
    rw [hp]
    by_contra hcon
    have h255 := hfft 255 (by decide)
    rw [List.getElem?_eq_none (by omega)] at h255
    exact absurd h255 (by simp)
  obtain ⟨td, h1, -, h3⟩ := textureData_ok FFTReal samples hf
  rw [h1]
  congr 1
  apply List.ext_getElem?
  intro j
  rw [h3, hp, List.getElem?_replicate]
  by_cases hj : j < 512
  · have a1 : j < 1024 := by omega
    have hg : (FFTReal (List.replicate 512 0)).getD (j / 2) 0 = (0, 0) := by
      rw [List.getD_eq_getElem?_getD, hfft (j / 2) (by omega)]
      rfl
    rw [if_pos hj, if_pos a1, hg]
    split_ifs <;> rfl
  · rw [if_neg hj]
    by_cases h2 : j < 1024
    · have hg : (List.replicate 512 (0 : ℚ)).getD (j - 512) 0 = 0 := by
        rw [List.getD_eq_getElem?_getD, List.getElem?_replicate]
        split_ifs <;> rfl
      rw [if_pos h2, if_pos h2, hg]
    · rw [if_neg h2, if_neg h2]

/-- C7 at a slice of three zero samples, with the stand-in transform. -/
theorem PreRender_silence_witness :
    PreRender.textureData exampleTransform [0, 0, 0] = .ok (List.replicate 1024 (encodeByte 0)) ∧
    encodeByte 0 = 127 :=
  PreRender_silence exampleTransform [0, 0, 0] (by simp) (by
    intro x hx
    rw [exampleTransform, List.getElem?_map, List.getElem?_replicate, if_pos (by omega)]
    rfl)

/-! ## `ReadSamples` -/

theorem i64_eq (x : Int) (h1 : -2 ^ 63 ≤ x) (h2 : x < 2 ^ 63) : i64 x = x := by
  unfold i64
  omega

theorem Bits_s16le : format.Bits ['s', '1', '6', 'l', 'e'] = .ok 16 :=
  Bits_fmt trackS16le trackS16le_wellFormed

theorem mapM_ok {α β ε : Type} (l : List α) (f : α → Except ε β) (g : α → β)
    (h : ∀ a ∈ l, f a = .ok (g a)) : l.mapM f = .ok (l.map g) := by
  induction l with
  | nil => rfl
  | cons a t ih =>
    rw [List.mapM_cons, h a (List.mem_cons_self _ _),
      ih (fun b hb => h b (List.mem_cons_of_mem _ hb))]
    rfl

theorem mapM_error {α β ε : Type} (l : List α) (f : α → Except ε β) (p : ε)
    (hall : ∀ a ∈ l, (∃ b, f a = .ok b) ∨ f a = .error p)
    (hex : ∃ a ∈ l, f a = .error p) : l.mapM f = .error p := by
  induction l with
  | nil =>
    obtain ⟨a, ha, -⟩ := hex
    exact absurd ha (List.not_mem_nil a)
  | cons a t ih =>
    rw [List.mapM_cons]
    rcases hall a (List.mem_cons_self _ _) with ⟨b, hb⟩ | hb
    · rw [hb]
      have ht : t.mapM f = .error p := by
        apply ih (fun c hc => hall c (List.mem_cons_of_mem _ hc))
        obtain ⟨c, hc, hfc⟩ := hex
        rcases List.mem_cons.mp hc with rfl | hc
        · rw [hb] at hfc
          exact absurd hfc (by simp)
        · exact ⟨c, hc, hfc⟩
      rw [ht]
      rfl
    · rw [hb]
      rfl

theorem ReadSamples_short (s : rawSource) (period bits : Int)
    (hbits : format.Bits s.format = .ok bits)
    (hshort : (s.file.length : Int) < s.bufLen (bits.tdiv 8) period)
    (hsil : 0 ≤ s.silenceLen period) :
    s.ReadSamples period
      = .ok (List.replicate (s.silenceLen period).toNat 0,
          ⟨[], s.sampleRate, s.channels, s.format⟩) := by
  have h1 : ¬ s.bufLen (bits.tdiv 8) period < 0 := by omega
  have h2 : s.file.length < (s.bufLen (bits.tdiv 8) period).toNat := by omega
  have h3 : ¬ s.silenceLen period < 0 := by omega
  simp only [rawSource.ReadSamples, hbits, h1, h2, h3, if_true, if_false]
theorem silenceLen_eq (s : rawSource) (period : Int) (hrate : 0 ≤ s.sampleRate)
    (hperiod : 0 ≤ period) (hno : s.sampleRate * period < 2 ^ 63) :
    s.silenceLen period = ⌊(s.sampleRate : ℚ) * ((period : ℚ) / 1000000000)⌋ := by
  have hnn : 0 ≤ s.sampleRate * period := mul_nonneg hrate hperiod
  unfold rawSource.silenceLen timeSecond
  rw [i64_eq _ (by omega) hno, Int.tdiv_eq_ediv hnn (by norm_num)]
  have hq : (s.sampleRate : ℚ) * ((period : ℚ) / 1000000000)
      = ((s.sampleRate * period : ℤ) : ℚ) / ((1000000000 : ℕ) : ℚ) := by
    push_cast
    ring
  rw [hq, Rat.floor_intCast_div_natCast]
  rfl

/-- The claim C4 fails: at 22000 Hz and a period of 16666666 ns (one frame at 60
frames per second) an exhausted stream gives 366 zero samples, while the nearest
integer to rate times period is 367. -/
theorem ReadSamples_exhausted_counterexample :
    rawSource.ReadSamples ⟨[], 22000, 1, ['s', '1', '6', 'l', 'e']⟩ 16666666
      = .ok (List.replicate 366 0, ⟨[], 22000, 1, ['s', '1', '6', 'l', 'e']⟩) ∧
    round ((22000 : ℚ) * ((16666666 : ℚ) / 1000000000)) = 367 := by
  constructor
  · rw [ReadSamples_short ⟨[], 22000, 1, ['s', '1', '6', 'l', 'e']⟩ 16666666 16 Bits_s16le
      (by decide) (by decide)]
    rfl
  · rw [round_eq, Int.floor_eq_iff]
    norm_num

/-- C4, amended: for a rate above 0 and a period above 0 nanoseconds whose
product fits an `int64`, a source whose reader cannot deliver the requested
number of bytes returns, without panicking, a slice of zeros whose length is
rate times period in seconds rounded down, and leaves the reader empty. -/
theorem ReadSamples_exhausted (s : rawSource) (period bits : Int)
    (hbits : format.Bits s.format = .ok bits)
    (hrate : 0 < s.sampleRate) (hperiod : 0 < period)
    (hno : s.sampleRate * period < 2 ^ 63)
    (hshort : (s.file.length : Int) < s.bufLen (bits.tdiv 8) period) :
    s.ReadSamples period
      = .ok (List.replicate ⌊(s.sampleRate : ℚ) * ((period : ℚ) / 1000000000)⌋.toNat 0,
          ⟨[], s.sampleRate, s.channels, s.format⟩) := by
  have hs := silenceLen_eq s period (le_of_lt hrate) (le_of_lt hperiod) hno
  have hnn : 0 ≤ s.silenceLen period := by
    rw [hs]
    apply Int.floor_nonneg.mpr
    have h1 : (0 : ℚ) < (s.sampleRate : ℚ) := by exact_mod_cast hrate
    have h2 : (0 : ℚ) < (period : ℚ) := by exact_mod_cast hperiod
    positivity
  rw [ReadSamples_short s period bits hbits hshort hnn, hs]

/-- C4 at 4 Hz mono `s16le` and a period of 0.7 s on an empty reader: two zero
samples, the integer part of 2.8. -/
theorem ReadSamples_exhausted_witness :
    rawSource.ReadSamples ⟨[], 4, 1, ['s', '1', '6', 'l', 'e']⟩ 700000000
      = .ok (List.replicate 2 0, ⟨[], 4, 1, ['s', '1', '6', 'l', 'e']⟩) := by
  have h := ReadSamples_exhausted ⟨[], 4, 1, ['s', '1', '6', 'l', 'e']⟩ 700000000 16 Bits_s16le
    (by decide) (by decide) (by decide) (by decide)
  rw [h]
  have hf : ⌊((4 : ℤ) : ℚ) * (((700000000 : ℤ) : ℚ) / 1000000000)⌋ = 2 := by
    rw [Int.floor_eq_iff]
    norm_num
  rw [hf]
  rfl

theorem int16OfBytes_eq (b0 b1 : Byte) :
    int16OfBytes b0 b1 =
      if 32768 ≤ (b0.val : Int) + 256 * (b1.val : Int)
      then (b0.val : Int) + 256 * (b1.val : Int) - 65536
      else (b0.val : Int) + 256 * (b1.val : Int) := by
  have h0 : b0.val < 2 ^ 8 := b0.isLt
  have h1 : b1.val < 256 := b1.isLt
  have hp : b0.val ||| ((b1.val <<< 8) % 2 ^ 16) = 2 ^ 8 * b1.val + b0.val := by
    rw [Nat.shiftLeft_eq, Nat.mod_eq_of_lt (by omega), Nat.lor_comm, Nat.mul_comm,
      Nat.mul_add_lt_is_or h0]
  unfold int16OfBytes
  simp only [hp]
  push_cast
  split_ifs <;> omega

theorem decodeS16le_mono (buf : List Byte) (i : Nat) (h : 2 * i + 2 ≤ buf.length)
    (hlen : (buf.length : Int) < 2 ^ 63) :
    decodeS16le buf 1 2 i
      = .ok ((int16OfBytes (buf.getD (2 * i) 0) (buf.getD (2 * i + 1) 0) : ℚ) / 32767) := by
  have ho : i64 (i64 ((i : Int) * 1) * 2) = 2 * (i : Int) := by
    have hi : i64 (i : Int) = i := i64_eq _ (by omega) (by omega)
    rw [mul_one, hi, i64_eq _ (by omega) (by omega)]
    ring
  have hh : i64 (2 * (i : Int) + 2) = 2 * (i : Int) + 2 := i64_eq _ (by omega) (by omega)
  have hc : 0 ≤ 2 * (i : Int) ∧ 2 * (i : Int) ≤ 2 * (i : Int) + 2 ∧
      2 * (i : Int) + 2 ≤ (buf.length : Int) := by omega
  have e1 : (2 * (i : Int)).toNat = 2 * i := by omega
  have e2 : (2 * (i : Int) + 2 - 2 * (i : Int)).toNat = 2 := by omega
  have g0 : ((buf.drop (2 * i)).take 2).get? 0 = some (buf.getD (2 * i) 0) := by
    have hlt : 2 * i < buf.length := by omega
    rw [List.get?_eq_getElem?, List.getElem?_take_of_lt (by decide), List.getElem?_drop,
      List.getD_eq_getElem?_getD, Nat.add_zero, List.getElem?_eq_getElem hlt]
    rfl
  have g1 : ((buf.drop (2 * i)).take 2).get? 1 = some (buf.getD (2 * i + 1) 0) := by
    have hlt : 2 * i + 1 < buf.length := by omega
    rw [List.get?_eq_getElem?, List.getElem?_take_of_lt (by decide), List.getElem?_drop,
      List.getD_eq_getElem?_getD, List.getElem?_eq_getElem hlt]
    rfl
  unfold decodeS16le
  rw [ho]
  dsimp only
  rw [hh, if_pos hc, e1, e2, g0, g1]
theorem ReadSamples_s16le_read (s : rawSource) (period : Int)
    (hfmt : s.format = ['s', '1', '6', 'l', 'e'])
    (hlen : 0 ≤ s.bufLen 2 period)
    (hread : (s.bufLen 2 period).toNat ≤ s.file.length) :
    s.ReadSamples period =
      match (List.range ((s.bufLen 2 period).tdiv 2).toNat).mapM
          (decodeS16le (s.file.take (s.bufLen 2 period).toNat) s.channels 2) with
      | .error p => .error p
      | .ok samples =>
        .ok (samples, ⟨s.file.drop (s.bufLen 2 period).toNat, s.sampleRate, s.channels,
          s.format⟩) := by
  have hb : format.Bits s.format = .ok 16 := by rw [hfmt]; exact Bits_s16le
  have h2 : Int.tdiv 16 8 = 2 := by decide
  have h1 : ¬ s.bufLen 2 period < 0 := by omega
  have h3 : ¬ s.file.length < (s.bufLen 2 period).toNat := by omega
  have h4 : ¬ (2 : Int) = 0 := by decide
  simp only [rawSource.ReadSamples, hb, h2, h1, h3, h4, if_false]
  rw [if_pos hfmt]

theorem bufLen_mono (file : List Byte) (rate period : Int) (f : format)
    (hr : 0 ≤ rate) (hp : 0 < period) (hno : rate * 2 * period < 2 ^ 63) :
    rawSource.bufLen ⟨file, rate, 1, f⟩ 2 period = rate * 2 * period / 1000000000 := by
  have h1 : rate * 2 ≤ rate * 2 * period := le_mul_of_one_le_right (by omega) (by omega)
  have hnn : 0 ≤ rate * 2 * period := mul_nonneg (by omega) (by omega)
  unfold rawSource.bufLen timeSecond
  simp only [mul_one]
  rw [i64_eq rate (by omega) (by omega), i64_eq (rate * 2) (by omega) (by omega),
    i64_eq (rate * 2 * period) (by omega) hno, Int.tdiv_eq_ediv hnn (by norm_num)]

theorem i64_lt (x : Int) : i64 x < 2 ^ 63 := by
  unfold i64
  omega

theorem tdiv_second_lt (a : Int) (ha : a < 2 ^ 63) : Int.tdiv a 1000000000 < 2 ^ 63 := by
  by_cases h : 0 ≤ a
  · rw [Int.tdiv_eq_ediv h (by norm_num)]
    omega
  · have h1 : 0 ≤ Int.tdiv (-a) 1000000000 := Int.tdiv_nonneg (by omega) (by norm_num)
    rw [Int.neg_tdiv] at h1
    omega

theorem bufLen_lt (s : rawSource) (numBytes period : Int) :
    s.bufLen numBytes period < 2 ^ 63 := by
  unfold rawSource.bufLen timeSecond
  exact tdiv_second_lt _ (i64_lt _)

/-- C5: a mono `s16le` source whose reader delivers the whole buffer `buf` returns
one sample for every two bytes of `buf`, and sample `i` is `X / 32767` for the
signed 16 bit integer `X` with low byte `buf[2i]` and high byte `buf[2i+1]`. -/
theorem ReadSamples_mono_s16le (file : List Byte) (rate period : Int)
    (hlen : 0 ≤ rawSource.bufLen ⟨file, rate, 1, ['s', '1', '6', 'l', 'e']⟩ 2 period)
    (hfull : rawSource.bufLen ⟨file, rate, 1, ['s', '1', '6', 'l', 'e']⟩ 2 period
      ≤ (file.length : Int)) :
    ∃ (samples : List ℚ) (buf : List Byte),
      buf = file.take (rawSource.bufLen ⟨file, rate, 1, ['s', '1', '6', 'l', 'e']⟩ 2 period).toNat ∧
      rawSource.ReadSamples ⟨file, rate, 1, ['s', '1', '6', 'l', 'e']⟩ period
        = .ok (samples, ⟨file.drop buf.length, rate, 1, ['s', '1', '6', 'l', 'e']⟩) ∧
      samples.length = buf.length / 2 ∧
      ∀ i, i < samples.length →
        ∃ b0 b1 : Byte,
          buf[2 * i]? = some b0 ∧ buf[2 * i + 1]? = some b1 ∧
          samples[i]? = some
            (((if 32768 ≤ (b0.val : Int) + 256 * (b1.val : Int)
               then (b0.val : Int) + 256 * (b1.val : Int) - 65536
               else (b0.val : Int) + 256 * (b1.val : Int) : Int) : ℚ) / 32767) := by
  have hlt := bufLen_lt ⟨file, rate, 1, ['s', '1', '6', 'l', 'e']⟩ 2 period
  have hread := ReadSamples_s16le_read ⟨file, rate, 1, ['s', '1', '6', 'l', 'e']⟩ period rfl
    hlen
    (by
      show (rawSource.bufLen ⟨file, rate, 1, ['s', '1', '6', 'l', 'e']⟩ 2 period).toNat
        ≤ file.length
      omega)
  generalize hN : (rawSource.bufLen ⟨file, rate, 1, ['s', '1', '6', 'l', 'e']⟩ 2 period).toNat
    = n at *
  have hNn : rawSource.bufLen ⟨file, rate, 1, ['s', '1', '6', 'l', 'e']⟩ 2 period = (n : Int) := by
    omega
  have hbuf : (file.take n).length = n := by
    rw [List.length_take]; omega
  have hdec : ∀ i ∈ List.range (n / 2),
      decodeS16le (file.take n) 1 2 i
        = .ok ((int16OfBytes ((file.take n).getD (2 * i) 0) ((file.take n).getD (2 * i + 1) 0)
            : ℚ) / 32767) := by
    intro i hi
    rw [List.mem_range] at hi
    exact decodeS16le_mono (file.take n) i (by omega) (by omega)
  rw [hNn] at hread
  have hc : (Int.tdiv (n : Int) 2).toNat = n / 2 := by
    rw [Int.tdiv_eq_ediv (by omega) (by omega)]; omega
  rw [hc] at hread
  change _ = (match (List.range (n / 2)).mapM (decodeS16le (file.take n) 1 2) with
    | .error p => .error p
    | .ok samples => .ok (samples, ⟨file.drop n, rate, 1, ['s', '1', '6', 'l', 'e']⟩)) at hread
  rw [mapM_ok _ _ _ hdec] at hread
  refine ⟨(List.range (n / 2)).map (fun i =>
      (int16OfBytes ((file.take n).getD (2 * i) 0) ((file.take n).getD (2 * i + 1) 0) : ℚ)
        / 32767), file.take n, rfl, ?_, ?_, ?_⟩
  · rw [hbuf]
    exact hread
  · rw [List.length_map, List.length_range, hbuf]
  · intro i hi
    rw [List.length_map, List.length_range] at hi
    have h0 : 2 * i < (file.take n).length := by omega
    have h1 : 2 * i + 1 < (file.take n).length := by omega
    refine ⟨(file.take n)[2 * i], (file.take n)[2 * i + 1], List.getElem?_eq_getElem h0,
      List.getElem?_eq_getElem h1, ?_⟩
    rw [List.getElem?_map, List.getElem?_range hi, Option.map_some', ← int16OfBytes_eq,
      List.getD_eq_getElem?_getD, List.getD_eq_getElem?_getD, List.getElem?_eq_getElem h0,
      List.getElem?_eq_getElem h1]
    rfl

/-- C5 at 3 Hz mono and a period of one second on a reader that holds seven
bytes: six bytes are read, and the second sample, from the bytes `ff ff`, is
`-1 / 32767`. -/
theorem ReadSamples_mono_s16le_witness :
    ∃ samples : List ℚ,
      rawSource.ReadSamples ⟨[1, 2, 255, 255, 0, 128, 7], 3, 1, ['s', '1', '6', 'l', 'e']⟩
          1000000000
        = .ok (samples, ⟨[7], 3, 1, ['s', '1', '6', 'l', 'e']⟩) ∧
      samples.length = 3 ∧ samples[1]? = some ((-1 : ℚ) / 32767) := by
  obtain ⟨samples, buf, hb, h1, h2, h3⟩ :=
    ReadSamples_mono_s16le [1, 2, 255, 255, 0, 128, 7] 3 1000000000 (by decide) (by decide)
  have hn : (rawSource.bufLen ⟨[1, 2, 255, 255, 0, 128, 7], 3, 1, ['s', '1', '6', 'l', 'e']⟩ 2
      1000000000).toNat = 6 := by decide
  rw [hn] at hb
  have hb2 : buf = [1, 2, 255, 255, 0, 128] := by rw [hb]; rfl
  subst hb2
  obtain ⟨b0, b1, e0, e1, e2⟩ := h3 1 (by rw [h2]; decide)
  have e0' : b0 = 255 := (Option.some.inj e0).symm
  have e1' : b1 = 255 := (Option.some.inj e1).symm
  subst e0' e1'
  refine ⟨samples, h1, h2, ?_⟩
  have hv : (((255 : Byte).val : Nat) : Int) = 255 := rfl
  rw [e2, hv]
  norm_num

theorem decodeS16le_stereo (buf : List Byte) (i : Nat) (hlen : (buf.length : Int) < 2 ^ 61)
    (hi : i ≤ buf.length) :
    (4 * i + 2 ≤ buf.length → ∃ q, decodeS16le buf 2 2 i = .ok q) ∧
    (buf.length < 4 * i + 2 → decodeS16le buf 2 2 i = .error .sliceBounds) := by
  have ho : i64 (i64 ((i : Int) * 2) * 2) = 4 * (i : Int) := by
    rw [i64_eq ((i : Int) * 2) (by omega) (by omega), i64_eq _ (by omega) (by omega)]
    ring
  have hh : i64 (4 * (i : Int) + 2) = 4 * (i : Int) + 2 := i64_eq _ (by omega) (by omega)
  have e1 : (4 * (i : Int)).toNat = 4 * i := by omega
  have e2 : (4 * (i : Int) + 2 - 4 * (i : Int)).toNat = 2 := by omega
  constructor
  · intro h
    have hc : 0 ≤ 4 * (i : Int) ∧ 4 * (i : Int) ≤ 4 * (i : Int) + 2 ∧
        4 * (i : Int) + 2 ≤ (buf.length : Int) := by omega
    have h0 : 4 * i < buf.length := by omega
    have h1 : 4 * i + 1 < buf.length := by omega
    have g0 : ((buf.drop (4 * i)).take 2).get? 0 = some buf[4 * i] := by
      rw [List.get?_eq_getElem?, List.getElem?_take_of_lt (by decide), List.getElem?_drop,
        Nat.add_zero, List.getElem?_eq_getElem h0]
    have g1 : ((buf.drop (4 * i)).take 2).get? 1 = some buf[4 * i + 1] := by
      rw [List.get?_eq_getElem?, List.getElem?_take_of_lt (by decide), List.getElem?_drop,
        List.getElem?_eq_getElem h1]
    unfold decodeS16le
    rw [ho]
    dsimp only
    rw [hh, if_pos hc, e1, e2, g0, g1]
    exact ⟨_, rfl⟩
  · intro h
    have hc : ¬ (0 ≤ 4 * (i : Int) ∧ 4 * (i : Int) ≤ 4 * (i : Int) + 2 ∧
        4 * (i : Int) + 2 ≤ (buf.length : Int)) := by omega
    unfold decodeS16le
    rw [ho]
    dsimp only
    rw [hh, if_neg hc]

theorem bufLen_stereo (file : List Byte) (rate period : Int) (f : format)
    (hr : 0 ≤ rate) (hp : 0 < period) (hno : rate * 2 * 2 * period < 2 ^ 63) :
    rawSource.bufLen ⟨file, rate, 2, f⟩ 2 period = rate * 2 * 2 * period / 1000000000 := by
  have h1 : rate * 2 * 2 ≤ rate * 2 * 2 * period := le_mul_of_one_le_right (by omega) (by omega)
  have hnn : 0 ≤ rate * 2 * 2 * period := mul_nonneg (by omega) (by omega)
  unfold rawSource.bufLen timeSecond
  show Int.tdiv (i64 (i64 (i64 (rate * 2) * 2) * period)) 1000000000 = _
  rw [i64_eq (rate * 2) (by omega) (by omega), i64_eq (rate * 2 * 2) (by omega) (by omega),
    i64_eq (rate * 2 * 2 * period) (by omega) hno, Int.tdiv_eq_ediv hnn (by norm_num)]

/-- A stereo `s16le` source panics on every successful read of four bytes or
more: the loop runs over one sample per two bytes but steps four bytes per
sample, so the slice expression leaves the buffer. -/
theorem ReadSamples_stereo_s16le (file : List Byte) (rate period : Int)
    (hr : 0 ≤ rate) (hp : 0 < period) (hno : rate * 2 * 2 * period < 2 ^ 61)
    (hfull : rate * 2 * 2 * period / 1000000000 ≤ (file.length : Int))
    (hfour : 4 ≤ rate * 2 * 2 * period / 1000000000) :
    rawSource.ReadSamples ⟨file, rate, 2, ['s', '1', '6', 'l', 'e']⟩ period
      = .error .sliceBounds := by
  have hnn : 0 ≤ rate * 2 * 2 * period := mul_nonneg (by omega) (by omega)
  have hnle : rate * 2 * 2 * period / 1000000000 ≤ rate * 2 * 2 * period :=
    Int.ediv_le_self _ hnn
  have hbl := bufLen_stereo file rate period ['s', '1', '6', 'l', 'e'] hr hp (by omega)
  generalize hN : (rate * 2 * 2 * period / 1000000000).toNat = n at *
  have hNn : rate * 2 * 2 * period / 1000000000 = (n : Int) := by omega
  have hbuf : (file.take n).length = n := by
    rw [List.length_take]; omega
  have hread := ReadSamples_s16le_read ⟨file, rate, 2, ['s', '1', '6', 'l', 'e']⟩ period rfl
    (by rw [hbl]; omega)
    (by
      rw [hbl]
      show (rate * 2 * 2 * period / 1000000000).toNat ≤ file.length
      omega)
  rw [hbl, hNn] at hread
  have hc : (Int.tdiv (n : Int) 2).toNat = n / 2 := by
    rw [Int.tdiv_eq_ediv (by omega) (by omega)]; omega
  simp only [Int.toNat_ofNat, hc] at hread
  have hm : (List.range (n / 2)).mapM (decodeS16le (file.take n) 2 2) = .error .sliceBounds := by
    apply mapM_error
    · intro i hi
      rw [List.mem_range] at hi
      have hd := decodeS16le_stereo (file.take n) i (by omega) (by omega)
      by_cases h : 4 * i + 2 ≤ (file.take n).length
      · exact Or.inl (hd.1 h)
      · exact Or.inr (hd.2 (by omega))
    · refine ⟨n / 2 - 1, List.mem_range.mpr (by omega), ?_⟩
      exact (decodeS16le_stereo (file.take n) (n / 2 - 1) (by omega) (by omega)).2 (by omega)
  rw [hm] at hread
  exact hread

/-- C10 fails on the code: a stereo `s16le` source at 4 Hz asked for one second
reads all 16 bytes it requests and then panics with a slice expression out of
range, at sample 4 of 8 (offset 16, upper bound 18, buffer length 16). -/
theorem ReadSamples_stereo_panics :
    rawSource.ReadSamples ⟨List.replicate 16 0, 4, 2, ['s', '1', '6', 'l', 'e']⟩ 1000000000
      = .error .sliceBounds ∧
    decodeS16le (List.replicate 16 0) 2 2 4 = .error .sliceBounds :=
  ⟨ReadSamples_stereo_s16le (List.replicate 16 0) 4 1000000000 (by decide) (by decide)
      (by decide) (by decide) (by decide),
    (decodeS16le_stereo (List.replicate 16 0) 4 (by decide) (by decide)).2 (by decide)⟩

theorem formatRe_Bits (f : format) (h : formatRe f = true) :
    ∃ w : Nat, format.Bits f = .ok (w : Int) := by
  obtain ⟨s, w, en, rfl, hs, hw, hwd, hen⟩ := formatRe_sound f h
  have hwf : ExplicitValue.WellFormed ⟨['x'], ['0'], ['0'], s, w, en⟩ :=
    ⟨by simp, by simp, by simp, by simp; decide, by simp, by simp; decide, hs, hw, hwd, hen⟩
  exact ⟨decimal w, Bits_fmt ⟨['x'], ['0'], ['0'], s, w, en⟩ hwf⟩

/-- The claim C8 fails: a `u8le` source whose read succeeds panics with the
"Unimplemented format" message. -/
theorem ReadSamples_unimplemented_counterexample :
    rawSource.ReadSamples ⟨[1, 2, 3, 4], 4, 1, ['u', '8', 'l', 'e']⟩ 1000000000
      = .error (.unimplementedFormat ['u', '8', 'l', 'e']) := by
  rfl

/-- C8, amended: for a format the mapping parser accepts, of a width other than 0
and other than `s16le`, a `ReadSamples` call whose read succeeds panics with the
"Unimplemented format" message; the method has no error result. -/
theorem ReadSamples_unimplemented (s : rawSource) (period bits : Int)
    (hre : formatRe s.format = true) (hbits : format.Bits s.format = .ok bits)
    (h8 : bits % 8 = 0) (h0 : bits ≠ 0) (hne : s.format ≠ ['s', '1', '6', 'l', 'e'])
    (hlen : 0 ≤ s.bufLen (bits.tdiv 8) period)
    (hread : s.bufLen (bits.tdiv 8) period ≤ (s.file.length : Int)) :
    s.ReadSamples period = .error (.unimplementedFormat s.format) := by
  obtain ⟨w, hw⟩ := formatRe_Bits s.format hre
  rw [hbits] at hw
  have hbw : bits = (w : Int) := by injection hw
  have h1 : ¬ s.bufLen (bits.tdiv 8) period < 0 := by omega
  have h3 : ¬ s.file.length < (s.bufLen (bits.tdiv 8) period).toNat := by omega
  have h4 : ¬ bits.tdiv 8 = 0 := by
    rw [Int.tdiv_eq_ediv (by omega) (by omega)]
    omega
  simp only [rawSource.ReadSamples, hbits, h1, h3, h4, if_false]
  rw [if_neg hne]

/-- C8 at the formats `u8le` and `s24le`. -/
theorem ReadSamples_unimplemented_witness :
    rawSource.ReadSamples ⟨[1, 2, 3, 4], 4, 1, ['u', '8', 'l', 'e']⟩ 1000000000
      = .error (.unimplementedFormat ['u', '8', 'l', 'e']) ∧
    rawSource.ReadSamples ⟨[1, 2, 3, 4, 5, 6], 1, 2, ['s', '2', '4', 'l', 'e']⟩ 1000000000
      = .error (.unimplementedFormat ['s', '2', '4', 'l', 'e']) :=
  ⟨ReadSamples_unimplemented ⟨[1, 2, 3, 4], 4, 1, ['u', '8', 'l', 'e']⟩ 1000000000 8
      (by decide) (by rfl) (by decide) (by decide) (by decide) (by decide) (by decide),
   ReadSamples_unimplemented ⟨[1, 2, 3, 4, 5, 6], 1, 2, ['s', '2', '4', 'l', 'e']⟩ 1000000000 24
      (by decide) (by rfl) (by decide) (by decide) (by decide) (by decide) (by decide)⟩

/-! ## Generic mapping values -/

theorem audioGenericValueRe_generic (value : List Char) (hne : value ≠ [])
    (hsemi : ∀ c ∈ value, c ≠ ';') : audioGenericValueRe value = some value := by
  unfold audioGenericValueRe
  rw [if_pos]
  refine ⟨hne, ?_⟩
  rw [List.all_eq_true]
  intro c hc
  simpa using hsemi c hc

/-- The claim C9 fails: with a transcoder that cannot be started the generic value
`a.mp3` still gives an audio source and a nil error. -/
theorem parseMappingValue_generic_counterexample :
    (exampleEnv.ffmpeg ['a', '.', 'm', 'p', '3']).exit = .spawnFailed ∧
    parseMappingValue exampleEnv [] ['a', '.', 'm', 'p', '3']
      = .ok (.ok ⟨[], 22000, 1, ['s', '1', '6', 'l', 'e']⟩) := by
  refine ⟨rfl, ?_⟩
  simp only [parseMappingValue,
    audioGenericValueRe_generic ['a', '.', 'm', 'p', '3'] (by decide) (by decide),
    decodeAudioFile]
  rfl

/-- C9, amended: for a generic value `parseMappingValue` returns, whatever the
outcome of the transcoder, a nil error and a mono `s16le` source at 22000 Hz that
reads what the transcoder wrote; when the transcoder wrote nothing, a read of a
period between 1 ms and 1000 s gives silence of `22000 * period / 1s` samples. -/
theorem parseMappingValue_generic (env : Env) (pwd value : List Char) (hne : value ≠ [])
    (hsemi : ∀ c ∈ value, c ≠ ';') :
    parseMappingValue env pwd value
      = .ok (.ok ⟨(env.ffmpeg value).output, 22000, 1, ['s', '1', '6', 'l', 'e']⟩) ∧
    ((env.ffmpeg value).output = [] → ∀ period : Int, 1000000 ≤ period → period ≤ 10 ^ 12 →
      rawSource.ReadSamples ⟨(env.ffmpeg value).output, 22000, 1, ['s', '1', '6', 'l', 'e']⟩ period
        = .ok (List.replicate (22000 * period / 1000000000).toNat 0,
            ⟨[], 22000, 1, ['s', '1', '6', 'l', 'e']⟩)) := by
  constructor
  · simp only [parseMappingValue, audioGenericValueRe_generic value hne hsemi, decodeAudioFile]
  · intro hout period hp1 hp2
    rw [hout]
    have hbl := bufLen_mono [] 22000 period ['s', '1', '6', 'l', 'e'] (by decide) (by omega)
      (by norm_num; omega)
    have hsl : rawSource.silenceLen ⟨[], 22000, 1, ['s', '1', '6', 'l', 'e']⟩ period
        = 22000 * period / 1000000000 := by
      unfold rawSource.silenceLen timeSecond
      show Int.tdiv (i64 (22000 * period)) 1000000000 = _
      rw [i64_eq _ (by omega) (by norm_num; omega), Int.tdiv_eq_ediv (by omega) (by norm_num)]
    have h := ReadSamples_short ⟨[], 22000, 1, ['s', '1', '6', 'l', 'e']⟩ period 16 Bits_s16le
      (by
        show ((([] : List Byte).length : Nat) : Int) <
          rawSource.bufLen ⟨[], 22000, 1, ['s', '1', '6', 'l', 'e']⟩ (Int.tdiv 16 8) period
        have h2 : Int.tdiv 16 8 = 2 := by decide
        rw [h2, hbl, List.length_nil]
        omega)
      (by rw [hsl]; omega)
    rw [h, hsl]

/-- C9 at the value `a.mp3` with a transcoder that cannot be started: a source
is returned, and a read of one second from it gives 22000 zero samples. -/
theorem parseMappingValue_generic_witness :
    parseMappingValue exampleEnv [] ['a', '.', 'm', 'p', '3']
      = .ok (.ok ⟨[], 22000, 1, ['s', '1', '6', 'l', 'e']⟩) ∧
    rawSource.ReadSamples ⟨[], 22000, 1, ['s', '1', '6', 'l', 'e']⟩ 1000000000
      = .ok (List.replicate 22000 0, ⟨[], 22000, 1, ['s', '1', '6', 'l', 'e']⟩) := by
  have h := parseMappingValue_generic exampleEnv [] ['a', '.', 'm', 'p', '3'] (by decide)
    (by decide)
  have h2 := h.2 rfl 1000000000 (by decide) (by decide)
  have hn : ((22000 : Int) * 1000000000 / 1000000000).toNat = 22000 := by decide
  rw [hn] at h2
  exact ⟨h.1, h2⟩

/-! ## The frame limit and the pacing loop -/

theorem uintOfFloat_floor (x : ℚ) (h0 : 0 ≤ x) (h1 : x < 2 ^ 64) :
    uintOfFloat x = ⌊x⌋.toNat := by
  unfold uintOfFloat
  have hn : 0 ≤ x.num := Rat.num_nonneg.mpr h0
  rw [Int.tdiv_eq_ediv hn (by positivity), ← Rat.floor_def]
  have hf0 : 0 ≤ ⌊x⌋ := Int.floor_nonneg.mpr h0
  have hf1 : ⌊x⌋ < 2 ^ 64 := Int.floor_lt.mpr (by exact_mod_cast h1)
  rw [Int.emod_eq_of_lt hf0 hf1]

theorem animateNumFrames_duration (duration framerate : ℚ) (hd : duration ≠ 0)
    (hf : framerate ≠ 0) :
    animateNumFrames 0 duration framerate = .ok (uintOfFloat (fmul duration framerate)) := by
  simp [animateNumFrames, hd, hf]

theorem pacingLoop_zero {α : Type} (frames : List α) (frame : Nat)
    (h : frame + frames.length < 2 ^ 64) : pacingLoop 0 frame frames = frames := by
  induction frames generalizing frame with
  | nil => rfl
  | cons img rest ih =>
    rw [List.length_cons] at h
    have h1 : u64 (frame + 1) = frame + 1 := Nat.mod_eq_of_lt (by omega)
    have h2 : ¬ frame + 1 = 0 := by omega
    simp only [pacingLoop, h1, h2, if_false]
    rw [ih (frame + 1) (by omega)]

theorem pacingLoop_limit {α : Type} (limit : Nat) (frames : List α) (frame : Nat)
    (h1 : frame < limit) (h2 : limit < 2 ^ 64) (h3 : limit - frame ≤ frames.length) :
    pacingLoop limit frame frames = frames.take (limit - frame) := by
  induction frames generalizing frame with
  | nil =>
    rw [List.length_nil] at h3
    omega
  | cons img rest ih =>
    rw [List.length_cons] at h3
    have hu : u64 (frame + 1) = frame + 1 := Nat.mod_eq_of_lt (by omega)
    by_cases hl : frame + 1 = limit
    · subst hl
      have e : frame + 1 - frame = 1 := by omega
      rw [e]
      simp only [pacingLoop, hu, if_true]
      rfl
    · have e : limit - frame = (limit - (frame + 1)) + 1 := by omega
      simp only [pacingLoop, hu, hl, if_false]
      rw [ih (frame + 1) (by omega) (by omega), e, List.take_succ_cons]
/-- The limit follows the rounded product: for the `float64` nearest to 0.3 and a
framerate of 10 the exact product is below 3 and the `float64` product is 3, so
the limit is 3 frames. -/
theorem animateNumFrames_rounded :
    (5404319552844595 / 2 ^ 54 : ℚ) * 10 < 3 ∧
    animateNumFrames 0 (5404319552844595 / 2 ^ 54) 10 = .ok 3 := by
  have hq0 : (0 : ℚ) < 3 - 1 / 2 ^ 53 := by norm_num
  have hlog : Int.log 2 |(3 - 1 / 2 ^ 53 : ℚ)| = 1 := by
    rw [abs_of_pos hq0]
    apply le_antisymm
    · have h : Int.log 2 (3 - 1 / 2 ^ 53 : ℚ) < 2 := by
        rw [← Int.lt_zpow_iff_log_lt (by decide) hq0]
        norm_num
      omega
    · rw [← Int.zpow_le_iff_le_log (by decide) hq0]
      norm_num
  have he : ulpExp (3 - 1 / 2 ^ 53 : ℚ) = -51 := by
    unfold ulpExp
    rw [hlog]
    decide
  have hx : (3 - 1 / 2 ^ 53 : ℚ) / 2 ^ (-51 : ℤ) = 3 * 2 ^ 51 - 1 / 4 := by norm_num
  have hfl : ⌊(3 * 2 ^ 51 - 1 / 4 : ℚ)⌋ = 3 * 2 ^ 51 - 1 := by
    rw [Int.floor_eq_iff]
    norm_num
  have hr : roundHalfEven (3 * 2 ^ 51 - 1 / 4 : ℚ) = 3 * 2 ^ 51 := by
    unfold roundHalfEven
    rw [hfl]
    have c1 : ¬ ((3 * 2 ^ 51 - 1 / 4 : ℚ) - ((3 * 2 ^ 51 - 1 : ℤ) : ℚ) < 1 / 2) := by norm_num
    have c2 : (1 / 2 : ℚ) < (3 * 2 ^ 51 - 1 / 4 : ℚ) - ((3 * 2 ^ 51 - 1 : ℤ) : ℚ) := by norm_num
    rw [if_neg c1, if_pos c2]
    norm_num
  have hm : fmul (5404319552844595 / 2 ^ 54) 10 = 3 := by
    have : (5404319552844595 / 2 ^ 54 : ℚ) * 10 = 3 - 1 / 2 ^ 53 := by norm_num
    unfold fmul roundF64
    rw [this, he, hx, hr]
    norm_num
  refine ⟨by norm_num, ?_⟩
  rw [animateNumFrames_duration _ _ (by norm_num) (by norm_num), hm,
    uintOfFloat_floor _ (by norm_num) (by norm_num)]
  have : ⌊(3 : ℚ)⌋ = 3 := by
    rw [Int.floor_eq_iff]
    norm_num
  rw [this]
  rfl

/-- C3 fails on the code: for a duration of 0.5 s at 1 frame per second the limit
is `floor(0.5 * 1) = 0`, which the loop reads as "no limit": all three frames
that arrive are forwarded, not zero of them. -/
theorem pacingLoop_counterexample :
    animateNumFrames 0 (1 / 2) 1 = .ok 0 ∧ ⌊(1 / 2 : ℚ) * 1⌋ = 0 ∧
    pacingLoop 0 0 [10, 11, 12] = [10, 11, 12] := by
  have hfl : ⌊(1 / 2 : ℚ) * 1⌋ = 0 := by
    rw [Int.floor_eq_iff]
    norm_num
  have hm : fmul (1 / 2) 1 = (1 / 2 : ℚ) * 1 := by
    unfold fmul
    exact roundF64_eq _ 1 (-1) (by norm_num) (by decide) (by decide)
  refine ⟨?_, hfl, pacingLoop_zero [10, 11, 12] 0 (by decide)⟩
  rw [animateNumFrames_duration (1 / 2) 1 (by norm_num) (by norm_num), hm,
    uintOfFloat_floor _ (by norm_num) (by norm_num), hfl]
  rfl

/-- For a framerate `F > 0` and a duration `D > 0` without `-numframes`, when the
`float64` product `D * F` is at least 1 and below `2^64`, the limit computed at
startup is the integer part of that product and the pacing loop forwards exactly
that many frames of a producer that supplies at least as many. -/
theorem pacingLoop_duration {α : Type} (duration framerate : ℚ) (frames : List α)
    (hd : 0 < duration) (hf : 0 < framerate)
    (h1 : 1 ≤ fmul duration framerate) (h2 : fmul duration framerate < 2 ^ 64)
    (hsup : ⌊fmul duration framerate⌋.toNat ≤ frames.length) :
    animateNumFrames 0 duration framerate = .ok ⌊fmul duration framerate⌋.toNat ∧
    pacingLoop ⌊fmul duration framerate⌋.toNat 0 frames
      = frames.take ⌊fmul duration framerate⌋.toNat ∧
    (pacingLoop ⌊fmul duration framerate⌋.toNat 0 frames).length
      = ⌊fmul duration framerate⌋.toNat := by
  have h0 : 0 ≤ fmul duration framerate := by linarith
  have hfl1 : 1 ≤ ⌊fmul duration framerate⌋ := Int.le_floor.mpr (by exact_mod_cast h1)
  have hfl2 : ⌊fmul duration framerate⌋ < 2 ^ 64 := Int.floor_lt.mpr (by exact_mod_cast h2)
  have hp := pacingLoop_limit ⌊fmul duration framerate⌋.toNat frames 0 (by omega) (by omega)
    (by omega)
  rw [Nat.sub_zero] at hp
  refine ⟨?_, hp, ?_⟩
  · rw [animateNumFrames_duration duration framerate (ne_of_gt hd) (ne_of_gt hf),
      uintOfFloat_floor _ h0 h2]
  · rw [hp, List.length_take]
    omega

/-- A duration of 2 s at 1.5 frames per second with five frames supplied: the
first three are forwarded. -/
theorem pacingLoop_duration_witness :
    animateNumFrames 0 2 (3 / 2) = .ok 3 ∧ pacingLoop 3 0 [10, 11, 12, 13, 14] = [10, 11, 12] := by
  have hm : fmul 2 (3 / 2) = 3 := by
    unfold fmul
    rw [roundF64_eq _ 3 0 (by norm_num) (by decide) (by decide)]
    norm_num
  have hfl : ⌊fmul 2 (3 / 2)⌋.toNat = 3 := by
    have : ⌊(3 : ℚ)⌋ = 3 := by
      rw [Int.floor_eq_iff]
      norm_num
    rw [hm, this]
    rfl
  have h := pacingLoop_duration 2 (3 / 2) [10, 11, 12, 13, 14] (by norm_num) (by norm_num)
    (by rw [hm]; norm_num) (by rw [hm]; norm_num) (by rw [hfl]; decide)
  rw [hfl] at h
  exact ⟨h.1, h.2.1⟩

end Shady
